import Mathlib

/-!
Shallow embedding of `codex-rs/core/src/tools/handlers/list_dir.rs`: a bounded,
depth-limited directory enumeration primitive.  The filesystem is modelled as an
inductive tree (`FsNode`); directory reads and per-entry metadata inspection are
the fallible operations, modelled by an unreadable-directory flag and a
metadata-failure node.  Machine strings are Lean `String`s; Rust's byte-wise
`String::cmp` is embedded as lexicographic comparison of the UTF-8 byte lists.
-/

deriving instance DecidableEq for Except

namespace ListDir

/-- File-type metadata as reported by the platform for one directory entry
(mirrors `std::fs::FileType` queried via `is_symlink` / `is_dir` / `is_file`). -/
structure FileType where
  is_symlink : Bool
  is_dir : Bool
  is_file : Bool
deriving DecidableEq

/-- The entry-kind tags of `list_dir.rs` (`enum DirEntryKind`). -/
inductive DirEntryKind where
  | directory
  | file
  | symlink
  | other
deriving DecidableEq

/-- `DirEntryKind::label`. -/
def DirEntryKind.label : DirEntryKind → String
  | .directory => "[dir]"
  | .file => "[file]"
  | .symlink => "[symlink]"
  | .other => "[other]"

/-- `impl From<&FileType> for DirEntryKind` (named `ofFileType` because `from` is
a Lean keyword): symlink is checked first, then directory, then file, everything
else is `Other`. -/
def DirEntryKind.ofFileType (file_type : FileType) : DirEntryKind :=
  if file_type.is_symlink then .symlink
  else if file_type.is_dir then .directory
  else if file_type.is_file then .file
  else .other

/-- `struct DirEntry`: the stored (possibly truncated) display name and kind. -/
structure DirEntry where
  name : String
  kind : DirEntryKind
deriving DecidableEq

/-- The modelled filesystem: a tree of nodes.  `dir readable children` is a
directory whose `read_dir` succeeds iff `readable`; `badMeta` is an entry whose
`file_type()` inspection fails; `file`, `symlink` and `other` report the
corresponding metadata.  Children are listed in the order `read_dir` yields
them. -/
inductive FsNode where
  | file
  | symlink
  | other
  | badMeta
  | dir (readable : Bool) (children : List (String × FsNode))

/-- The file type reported by an entry's own metadata (`entry.file_type()`);
`none` models an inspection failure. -/
def fileTypeOf : FsNode → Option FileType
  | .file => some ⟨false, false, true⟩
  | .symlink => some ⟨true, false, false⟩
  | .other => some ⟨false, false, false⟩
  | .badMeta => none
  | .dir _ _ => some ⟨false, true, false⟩

/-- The UTF-8 encoding of one character as a list of byte values. -/
def charUtf8Bytes (c : Char) : List Nat :=
  let n := c.toNat
  if n < 0x80 then [n]
  else if n < 0x800 then [0xC0 + n / 0x40, 0x80 + n % 0x40]
  else if n < 0x10000 then
    [0xE0 + n / 0x1000, 0x80 + n / 0x40 % 0x40, 0x80 + n % 0x40]
  else
    [0xF0 + n / 0x40000, 0x80 + n / 0x1000 % 0x40, 0x80 + n / 0x40 % 0x40,
     0x80 + n % 0x40]

/-- The UTF-8 byte sequence of a string. -/
def utf8Bytes (s : String) : List Nat :=
  s.data.flatMap charUtf8Bytes

/-- Byte length of a string's UTF-8 encoding (Rust `str::len`). -/
def byteLen (s : String) : Nat := (utf8Bytes s).length

/-- Byte-wise lexicographic comparison of byte sequences: the order underlying
Rust's `String::cmp`. -/
def bytesLe : List Nat → List Nat → Bool
  | [], _ => true
  | _ :: _, [] => false
  | a :: as, b :: bs => if a < b then true else if b < a then false else bytesLe as bs

/-- `a.name.cmp(&b.name)` as a boolean `≤` on entries. -/
def nameLe (a b : DirEntry) : Bool := bytesLe (utf8Bytes a.name) (utf8Bytes b.name)

/-- Strict byte-wise order on entry names. -/
def nameLt (a b : DirEntry) : Prop :=
  nameLe a b = true ∧ utf8Bytes a.name ≠ utf8Bytes b.name

/-- Greedy helper for `take_bytes_at_char_boundary`: keeps consuming whole
characters while the accumulated byte count stays within the budget. -/
def takeBytesAux (maxBytes : Nat) : List Char → Nat → List Char
  | [], _ => []
  | c :: cs, used =>
    if used + (charUtf8Bytes c).length ≤ maxBytes then
      c :: takeBytesAux maxBytes cs (used + (charUtf8Bytes c).length)
    else []

/-- Modelled from the spec: the helper `take_bytes_at_char_boundary` lives in the
`codex_utils_string` crate, which is not part of this repository snapshot.  Per
the spec it returns the longest prefix of the string of at most `maxBytes` bytes
that ends on a valid character boundary (never splitting a multi-byte code
point). -/
def take_bytes_at_char_boundary (s : String) (maxBytes : Nat) : String :=
  ⟨takeBytesAux maxBytes s.data 0⟩

/-- `const MAX_ENTRY_LENGTH: usize = 500`. -/
def MAX_ENTRY_LENGTH : Nat := 500

/-- `format_entry_name`: truncate a name longer than `MAX_ENTRY_LENGTH` bytes,
keep shorter names unchanged. -/
def format_entry_name (name : String) : String :=
  if byteLen name > MAX_ENTRY_LENGTH then
    take_bytes_at_char_boundary name MAX_ENTRY_LENGTH
  else name

/-- Relative-path joining (`prefix.join(&file_name)` then `to_string_lossy`,
with `/` as separator); an empty accumulated relative-path prefix yields just
the child's name. -/
def joinPath (pre : String) (name : String) : String :=
  if pre = "" then name else pre ++ "/" ++ name

/-- One pending work item of `collect_entries`' explicit stack:
(directory to read, accumulated relative-path prefix, remaining depth). -/
abbrev StackItem := FsNode × String × Nat

/-- The body of the inner `while let Some(entry) = read_dir.next_entry()` loop
of `collect_entries`: processes the children of one directory in discovery
order, appending one `DirEntry` per child to the accumulator and pushing a child
directory onto the work stack exactly when its kind is `Directory` and the
remaining depth budget exceeds 1.  Fails if any child's file-type inspection
fails.  The head of the stack list is the top of the stack. -/
def readChildren (pre : String) (remaining_depth : Nat) :
    List (String × FsNode) → List DirEntry → List StackItem →
    Except String (List DirEntry × List StackItem)
  | [], entries, stack => .ok (entries, stack)
  | (file_name, child) :: rest, entries, stack =>
    match fileTypeOf child with
    | none => .error "failed to inspect entry"
    | some file_type =>
      let relative_path := joinPath pre file_name
      let display_name := format_entry_name relative_path
      let kind := DirEntryKind.ofFileType file_type
      let entries := entries ++ [⟨display_name, kind⟩]
      let stack :=
        if kind = DirEntryKind.directory ∧ remaining_depth > 1 then
          (child, relative_path, remaining_depth - 1) :: stack
        else stack
      readChildren pre remaining_depth rest entries stack

mutual

/-- Structural weight of a node, used as the traversal's termination measure. -/
def nodeWeight : FsNode → Nat
  | .dir _ children => 1 + childListWeight children
  | .file => 1
  | .symlink => 1
  | .other => 1
  | .badMeta => 1

/-- Total weight of a child list (one extra unit per element, so that list
suffixes strictly decrease). -/
def childListWeight : List (String × FsNode) → Nat
  | [] => 0
  | (_, c) :: rest => 1 + nodeWeight c + childListWeight rest

end

/-- Total weight of the nodes on the work stack. -/
def stackWeight : List StackItem → Nat
  | [] => 0
  | (n, _, _) :: rest => nodeWeight n + stackWeight rest

theorem readChildren_stackWeight (pre : String) (remaining_depth : Nat) :
    ∀ (cs : List (String × FsNode)) (es : List DirEntry) (st : List StackItem)
      (res : List DirEntry × List StackItem),
      readChildren pre remaining_depth cs es st = .ok res →
      stackWeight res.2 ≤ childListWeight cs + stackWeight st := by
  intro cs
  induction cs with
  | nil =>
    intro es st res h
    simp [readChildren] at h
    simp [← h, childListWeight]
  | cons hd rest ih =>
    intro es st res h
    obtain ⟨file_name, child⟩ := hd
    simp only [readChildren] at h
    cases hft : fileTypeOf child with
    | none => rw [hft] at h; exact absurd h (by simp)
    | some ft =>
      simp only [hft] at h
      simp only [childListWeight]
      by_cases hc : DirEntryKind.ofFileType ft = DirEntryKind.directory ∧
          remaining_depth > 1
      · rw [if_pos hc] at h
        have := ih _ _ _ h
        simp [stackWeight] at this
        omega
      · rw [if_neg hc] at h
        have := ih _ _ _ h
        omega

/-- The `while let Some((current_dir, prefix, remaining_depth)) = stack.pop()`
loop of `collect_entries`.  Popping a node that is not a readable directory
fails the way `fs::read_dir` does.  The loop is phrased with an explicit fuel
parameter — the loop variant `stackWeight` — so that it is structurally
recursive and kernel-computable; `collectLoopFuel_fuel_irrelevant` below shows
the fuel-exhaustion branch is unreachable whenever the fuel is at least the
weight of the stack, which `collect_entries` always supplies. -/
def collectLoopFuel : Nat → List StackItem → List DirEntry →
    Except String (List DirEntry)
  | _, [], entries => .ok entries
  | 0, _ :: _, _ => .error "unreachable: loop variant exhausted"
  | fuel + 1, (current_dir, pre, remaining_depth) :: stack, entries =>
    match current_dir with
    | .dir true children =>
      match readChildren pre remaining_depth children entries stack with
      | .error e => .error e
      | .ok res => collectLoopFuel fuel res.2 res.1
    | .dir false _ => .error "failed to read directory"
    | .file => .error "failed to read directory"
    | .symlink => .error "failed to read directory"
    | .other => .error "failed to read directory"
    | .badMeta => .error "failed to read directory"

theorem collectLoopFuel_fuel_irrelevant :
    ∀ (f g : Nat) (stack : List StackItem) (entries : List DirEntry),
      stackWeight stack ≤ f → stackWeight stack ≤ g →
      collectLoopFuel f stack entries = collectLoopFuel g stack entries := by
  intro f
  induction f with
  | zero =>
    intro g stack entries hf _
    cases stack with
    | nil => cases g <;> simp [collectLoopFuel]
    | cons item rest =>
      exfalso
      obtain ⟨n, p, d⟩ := item
      have : 1 ≤ nodeWeight n := by cases n <;> simp [nodeWeight]
      simp [stackWeight] at hf
      omega
  | succ f ih =>
    intro g stack entries hf hg
    cases stack with
    | nil => cases g <;> simp [collectLoopFuel]
    | cons item rest =>
      obtain ⟨n, p, d⟩ := item
      have hn1 : 1 ≤ nodeWeight n := by cases n <;> simp [nodeWeight]
      simp only [stackWeight] at hf hg
      cases g with
      | zero => omega
      | succ g =>
        cases n with
        | dir readable children =>
          cases readable with
          | true =>
            simp only [collectLoopFuel]
            cases hr : readChildren p d children entries rest with
            | error e => rfl
            | ok res =>
              have hw := readChildren_stackWeight p d children entries rest res hr
              simp only [nodeWeight] at hf hg
              exact ih g res.2 res.1 (by omega) (by omega)
          | false => rfl
        | file => rfl
        | symlink => rfl
        | other => rfl
        | badMeta => rfl

/-- `collect_entries`: seeds the explicit work stack with
`(dir_path, rel_start, depth)` and runs the traversal loop, appending
entries to the accumulator.  The supplied fuel is exactly the loop variant of
the initial stack, which is always sufficient. -/
def collect_entries (dir_path : FsNode) (rel_start : String) (depth : Nat)
    (entries : List DirEntry) : Except String (List DirEntry) :=
  collectLoopFuel (stackWeight [(dir_path, rel_start, depth)])
    [(dir_path, rel_start, depth)] entries

/-- The `≤` relation on entries induced by `a.name.cmp(&b.name)`. -/
def entryLe (a b : DirEntry) : Prop := nameLe a b = true

instance : DecidableRel entryLe := fun a b =>
  inferInstanceAs (Decidable (nameLe a b = true))

/-- `entries.sort_unstable_by(|a, b| a.name.cmp(&b.name))`: sort by byte-wise
lexicographic comparison of names.  `sort_unstable_by` leaves the relative
order of entries with equal names unspecified; the embedding models it with a
deterministic (insertion) sort by the same comparator. -/
def sortEntries (entries : List DirEntry) : List DirEntry :=
  List.insertionSort entryLe entries

/-- One output line: `E<ordinal>: [<kind>] <name>`. -/
def renderLine (ordinal : Nat) (entry : DirEntry) : String :=
  "E" ++ toString ordinal ++ ": " ++ entry.kind.label ++ " " ++ entry.name

/-- The `for (position, entry) in entries[start..end].iter().enumerate()`
formatting loop of `list_dir_slice`; the ordinal is the absolute rank
`start_index + position + 1`. -/
def formatSlice (start_index : Nat) (slice : List DirEntry) : List String :=
  slice.enum.map fun p => renderLine (start_index + p.1 + 1) p.2

/-- Modulus of `usize` on the 64-bit targets the tool runs on: the window
arithmetic `start_index + limit` at line 130 of the source is a `usize`
addition, not an unbounded one. -/
def USIZE_SIZE : Nat := 2 ^ 64

/-- Result of one call: a returned value, a returned recoverable error
(`FunctionCallError`), or a process-aborting Rust panic — a panic never
returns a value to the caller. -/
inductive RunResult (α : Type) where
  | ok (val : α)
  | error (msg : String)
  | panic (msg : String)
deriving DecidableEq

/-- `list_dir_slice`: collect, sort, succeed with empty output on an empty entry
set, reject an offset beyond the entry count, then format the selected window
with absolute ordinals.  The window bound `start_index + limit` is the `usize`
addition of the source: in release mode it wraps modulo `2^64`, and a wrapped
bound falls below `start_index`, making the slice expression
`entries[start_index..end_index]` panic (debug builds panic already at the
addition, on exactly the same inputs). -/
def list_dir_slice (path : FsNode) (offset limit depth : Nat) :
    RunResult (List String) :=
  match collect_entries path "" depth [] with
  | .error e => .error e
  | .ok collected =>
    let entries := sortEntries collected
    if entries.isEmpty then .ok []
    else
      let start_index := offset - 1
      if start_index ≥ entries.length then
        .error "offset exceeds directory entry count"
      else
        let end_index := min ((start_index + limit) % USIZE_SIZE) entries.length
        if end_index < start_index then .panic "slice index out of range"
        else
          .ok (formatSlice start_index
            ((entries.drop start_index).take (end_index - start_index)))

/-- The kind a node's own metadata reports; agrees with
`DirEntryKind.ofFileType` whenever inspection succeeds. -/
def kindOf : FsNode → DirEntryKind
  | .dir _ _ => .directory
  | .file => .file
  | .symlink => .symlink
  | .other => .other
  | .badMeta => .other

/-- The entry stored for one discovered child: the truncated relative path and
the kind taken from the child's own metadata. -/
def mkEntry (pre : String) (p : String × FsNode) : DirEntry :=
  ⟨format_entry_name (joinPath pre p.1), kindOf p.2⟩

/-- Truncation applied to a stored entry name, leaving the kind alone. -/
def truncEntry (e : DirEntry) : DirEntry :=
  ⟨format_entry_name e.name, e.kind⟩

/-- The work items one directory's children contribute to the stack, in
discovery order: one item per child directory when the remaining depth budget
exceeds 1. -/
def pushItems (pre : String) (remaining_depth : Nat) :
    List (String × FsNode) → List StackItem
  | [] => []
  | (file_name, child) :: rest =>
    match child with
    | .dir readable children =>
      if remaining_depth > 1 then
        (FsNode.dir readable children, joinPath pre file_name,
          remaining_depth - 1) :: pushItems pre remaining_depth rest
      else pushItems pre remaining_depth rest
    | _ => pushItems pre remaining_depth rest

mutual

/-- Declarative reading of the traversal: the entries reachable from a child
list within the remaining depth budget, carrying raw (untruncated) relative
paths.  Every child is recorded regardless of kind. -/
def reachableFrom : List (String × FsNode) → String → Nat → List DirEntry
  | [], _, _ => []
  | (file_name, child) :: rest, pre, remaining_depth =>
    (⟨joinPath pre file_name, kindOf child⟩ ::
        reachableSub child (joinPath pre file_name) remaining_depth) ++
      reachableFrom rest pre remaining_depth

/-- The entries reachable strictly below one child: a child directory's own
children are reachable exactly when the remaining depth budget exceeds 1;
non-directories contribute nothing below themselves. -/
def reachableSub : FsNode → String → Nat → List DirEntry
  | .dir _ children, rel, remaining_depth =>
    if remaining_depth > 1 then reachableFrom children rel (remaining_depth - 1)
    else []
  | _, _, _ => []

end

mutual

/-- Decides that the traversal that pops this node (as a directory to read)
with the given remaining depth budget encounters no directory-read failure and
no entry-inspection failure. -/
def goodNode : FsNode → Nat → Bool
  | .dir true children, remaining_depth => goodChildren children remaining_depth
  | _, _ => false

/-- Goodness of every child of one directory: each child is inspectable, and
each child directory that will be pushed (depth budget above 1) is itself
good. -/
def goodChildren : List (String × FsNode) → Nat → Bool
  | [], _ => true
  | (_, child) :: rest, remaining_depth =>
    (fileTypeOf child).isSome &&
      (match child with
       | .dir readable children =>
         decide (remaining_depth ≤ 1) ||
           goodNode (FsNode.dir readable children) (remaining_depth - 1)
       | _ => true) &&
      goodChildren rest remaining_depth

end

mutual

/-- Well-formedness of the modelled filesystem: within every directory the
child names are pairwise distinct and contain no path separator, as real
directory entries are. -/
def wfNode : FsNode → Bool
  | .dir _ children => wfChildren children
  | _ => true

/-- Well-formedness of one child list: names are non-empty, contain no path
separator, and are pairwise distinct. -/
def wfChildren : List (String × FsNode) → Bool
  | [] => true
  | (file_name, child) :: rest =>
    decide (file_name ≠ "") &&
      decide (Char.ofNat 47 ∉ file_name.data) &&
      decide (∀ p ∈ rest, p.1 ≠ file_name) &&
      wfNode child && wfChildren rest

end

/-- The inner loop of the comparison variant used by the refinement claim:
identical to `readChildren` except that the stored Entry keeps the raw
(untruncated) relative path. -/
def readChildrenRaw (pre : String) (remaining_depth : Nat) :
    List (String × FsNode) → List DirEntry → List StackItem →
    Except String (List DirEntry × List StackItem)
  | [], entries, stack => .ok (entries, stack)
  | (file_name, child) :: rest, entries, stack =>
    match fileTypeOf child with
    | none => .error "failed to inspect entry"
    | some file_type =>
      let relative_path := joinPath pre file_name
      let kind := DirEntryKind.ofFileType file_type
      let entries := entries ++ [⟨relative_path, kind⟩]
      let stack :=
        if kind = DirEntryKind.directory ∧ remaining_depth > 1 then
          (child, relative_path, remaining_depth - 1) :: stack
        else stack
      readChildrenRaw pre remaining_depth rest entries stack

/-- The outer loop of the comparison variant: identical to `collectLoopFuel`
but collecting raw names. -/
def collectLoopRawFuel : Nat → List StackItem → List DirEntry →
    Except String (List DirEntry)
  | _, [], entries => .ok entries
  | 0, _ :: _, _ => .error "unreachable: loop variant exhausted"
  | fuel + 1, (current_dir, pre, remaining_depth) :: stack, entries =>
    match current_dir with
    | .dir true children =>
      match readChildrenRaw pre remaining_depth children entries stack with
      | .error e => .error e
      | .ok res => collectLoopRawFuel fuel res.2 res.1
    | .dir false _ => .error "failed to read directory"
    | .file => .error "failed to read directory"
    | .symlink => .error "failed to read directory"
    | .other => .error "failed to read directory"
    | .badMeta => .error "failed to read directory"

/-- Collection phase of the comparison variant: raw relative paths. -/
def collect_entries_raw (dir_path : FsNode) (rel_start : String)
    (depth : Nat) (entries : List DirEntry) : Except String (List DirEntry) :=
  collectLoopRawFuel (stackWeight [(dir_path, rel_start, depth)])
    [(dir_path, rel_start, depth)] entries

/-- The refinement claim's comparison pipeline, following the spec's words:
sort the untruncated relative paths, select the window, and truncate each
emitted name just before rendering. -/
def list_dir_slice_sortRaw (path : FsNode) (offset limit depth : Nat) :
    RunResult (List String) :=
  match collect_entries_raw path "" depth [] with
  | .error e => .error e
  | .ok collected =>
    let entries := sortEntries collected
    if entries.isEmpty then .ok []
    else
      let start_index := offset - 1
      if start_index ≥ entries.length then
        .error "offset exceeds directory entry count"
      else
        let end_index := min ((start_index + limit) % USIZE_SIZE) entries.length
        if end_index < start_index then .panic "slice index out of range"
        else
          .ok (formatSlice start_index
            (((entries.drop start_index).take (end_index - start_index)).map
              truncEntry))

/-- `struct ListDirArgs` after JSON decoding. -/
structure ListDirArgs where
  dir_path : String
  offset : Nat
  limit : Nat
  depth : Nat

/-- `default_offset()`. -/
def default_offset : Nat := 1

/-- `default_limit()`. -/
def default_limit : Nat := 2000

/-- `default_depth()`. -/
def default_depth : Nat := 2

/-- `Path::is_absolute` for unix-style paths: begins with the root separator. -/
def isAbsolutePath (p : String) : Bool := p.startsWith "/"

/-- `ListDirHandler::handle` after argument decoding: validates the arguments,
then runs `list_dir_slice` and joins the lines with newlines.  The filesystem
root that `dir_path` denotes is passed explicitly since the embedding has no
real filesystem. -/
def handle (args : ListDirArgs) (root : FsNode) : RunResult String :=
  if args.offset = 0 then .error "offset must be a 1-indexed entry number"
  else if args.limit = 0 then .error "limit must be greater than zero"
  else if args.depth = 0 then .error "depth must be greater than zero"
  else if ¬ isAbsolutePath args.dir_path then
    .error "dir_path must be an absolute path"
  else
    match list_dir_slice root args.offset args.limit args.depth with
    | .error e => .error e
    | .ok entries => .ok (String.intercalate "\n" entries)
    | .panic m => .panic m

/-! ### Characterization of the traversal loop -/

theorem kindOf_ofFileType (c : FsNode) (ft : FileType)
    (h : fileTypeOf c = some ft) : DirEntryKind.ofFileType ft = kindOf c := by
  cases c <;> simp [fileTypeOf] at h <;>
    simp [← h, DirEntryKind.ofFileType, kindOf]

theorem readChildren_ok (pre : String) (d : Nat) :
    ∀ (cs : List (String × FsNode)) (acc : List DirEntry) (st : List StackItem),
      (∀ p ∈ cs, (fileTypeOf p.2).isSome) →
      readChildren pre d cs acc st =
        .ok (acc ++ cs.map (mkEntry pre), (pushItems pre d cs).reverse ++ st) := by
  intro cs
  induction cs with
  | nil => intro acc st _; simp [readChildren, pushItems]
  | cons p rest ih =>
    intro acc st h
    obtain ⟨file_name, child⟩ := p
    have hrest : ∀ q ∈ rest, (fileTypeOf q.2).isSome := fun q hq =>
      h q (List.mem_cons_of_mem _ hq)
    cases child with
    | badMeta =>
      exfalso
      have := h (file_name, FsNode.badMeta) (List.mem_cons_self _ _)
      simp [fileTypeOf] at this
    | file =>
      simp only [readChildren, fileTypeOf]
      rw [ih _ _ hrest]
      simp [mkEntry, pushItems, DirEntryKind.ofFileType, kindOf]
    | symlink =>
      simp only [readChildren, fileTypeOf]
      rw [ih _ _ hrest]
      simp [mkEntry, pushItems, DirEntryKind.ofFileType, kindOf]
    | other =>
      simp only [readChildren, fileTypeOf]
      rw [ih _ _ hrest]
      simp [mkEntry, pushItems, DirEntryKind.ofFileType, kindOf]
    | dir readable children =>
      simp only [readChildren, fileTypeOf]
      rw [ih _ _ hrest]
      by_cases hd : d > 1
      · simp [mkEntry, pushItems, DirEntryKind.ofFileType, kindOf, hd]
      · simp [mkEntry, pushItems, DirEntryKind.ofFileType, kindOf, hd]

theorem readChildren_err (pre : String) (d : Nat) :
    ∀ (cs : List (String × FsNode)) (acc : List DirEntry) (st : List StackItem),
      (∃ p ∈ cs, fileTypeOf p.2 = none) →
      readChildren pre d cs acc st = .error "failed to inspect entry" := by
  intro cs
  induction cs with
  | nil => intro acc st h; simp at h
  | cons p rest ih =>
    intro acc st h
    obtain ⟨file_name, child⟩ := p
    cases hft : fileTypeOf child with
    | none => simp [readChildren, hft]
    | some ft =>
      simp only [readChildren, hft]
      apply ih
      obtain ⟨q, hq, hqn⟩ := h
      rcases List.mem_cons.mp hq with hq1 | hq2
      · exfalso; rw [hq1] at hqn; simp at hqn; rw [hqn] at hft; simp at hft
      · exact ⟨q, hq2, hqn⟩

/-- Children of a node (empty for non-directories). -/
def childrenOf : FsNode → List (String × FsNode)
  | .dir _ children => children
  | _ => []

/-- The (truncated) entries one stack item will eventually contribute. -/
def itemReach : StackItem → List DirEntry
  | (n, pre, remaining_depth) =>
    (reachableFrom (childrenOf n) pre remaining_depth).map truncEntry

/-- The entries a whole stack will eventually contribute. -/
def stackReach (stack : List StackItem) : List DirEntry :=
  stack.flatMap itemReach

theorem stackWeight_append (a b : List StackItem) :
    stackWeight (a ++ b) = stackWeight a + stackWeight b := by
  induction a with
  | nil => simp [stackWeight]
  | cons it rest ih =>
    obtain ⟨n, p, d⟩ := it
    simp [stackWeight, ih]
    omega

theorem stackWeight_reverse (a : List StackItem) :
    stackWeight a.reverse = stackWeight a := by
  induction a with
  | nil => rfl
  | cons it rest ih =>
    obtain ⟨n, p, d⟩ := it
    simp [List.reverse_cons, stackWeight_append, stackWeight, ih]
    omega

theorem stackWeight_pushItems (pre : String) (d : Nat) :
    ∀ cs : List (String × FsNode),
      stackWeight (pushItems pre d cs) ≤ childListWeight cs := by
  intro cs
  induction cs with
  | nil => simp [pushItems, stackWeight, childListWeight]
  | cons p rest ih =>
    obtain ⟨file_name, child⟩ := p
    cases child with
    | dir readable children =>
      by_cases hd : d > 1
      · simp only [pushItems, if_pos hd, stackWeight, childListWeight]
        omega
      · simp only [pushItems, if_neg hd, childListWeight]
        omega
    | file => simp only [pushItems, childListWeight]; omega
    | symlink => simp only [pushItems, childListWeight]; omega
    | other => simp only [pushItems, childListWeight]; omega
    | badMeta => simp only [pushItems, childListWeight]; omega

theorem goodChildren_inspectable (d : Nat) :
    ∀ cs : List (String × FsNode), goodChildren cs d = true →
      ∀ p ∈ cs, (fileTypeOf p.2).isSome := by
  intro cs
  induction cs with
  | nil => intro _ p hp; simp at hp
  | cons q rest ih =>
    intro h p hp
    obtain ⟨file_name, child⟩ := q
    rw [goodChildren.eq_def] at h
    simp only [Bool.and_eq_true] at h
    rcases List.mem_cons.mp hp with h1 | h2
    · rw [h1]; exact h.1.1
    · exact ih h.2 p h2

theorem goodChildren_pushed (pre : String) (d : Nat) :
    ∀ cs : List (String × FsNode), goodChildren cs d = true →
      ∀ it ∈ pushItems pre d cs, goodNode it.1 it.2.2 = true := by
  intro cs
  induction cs with
  | nil => intro _ it hit; simp [pushItems] at hit
  | cons q rest ih =>
    intro h it hit
    obtain ⟨file_name, child⟩ := q
    rw [goodChildren.eq_def] at h
    simp only [Bool.and_eq_true] at h
    cases child with
    | dir readable children =>
      by_cases hd : d > 1
      · simp only [pushItems, if_pos hd] at hit
        rcases List.mem_cons.mp hit with h1 | h2
        · rw [h1]
          have := h.1.2
          rw [Bool.or_eq_true] at this
          rcases this with hle | hg
          · exfalso; simp at hle; omega
          · exact hg
        · exact ih h.2 it h2
      · simp only [pushItems, if_neg hd] at hit
        exact ih h.2 it hit
    | file => simp only [pushItems] at hit; exact ih h.2 it hit
    | symlink => simp only [pushItems] at hit; exact ih h.2 it hit
    | other => simp only [pushItems] at hit; exact ih h.2 it hit
    | badMeta => simp only [pushItems] at hit; exact ih h.2 it hit

theorem goodChildren_bad_pushed (pre : String) (d : Nat) :
    ∀ cs : List (String × FsNode), goodChildren cs d = false →
      (∀ p ∈ cs, (fileTypeOf p.2).isSome) →
      ∃ it ∈ pushItems pre d cs, goodNode it.1 it.2.2 = false := by
  intro cs
  induction cs with
  | nil => intro h _; rw [goodChildren.eq_def] at h; simp at h
  | cons q rest ih =>
    intro h hins
    obtain ⟨file_name, child⟩ := q
    rw [goodChildren.eq_def] at h
    simp only [Bool.and_eq_false_iff] at h
    have hhead : (fileTypeOf child).isSome = true :=
      hins (file_name, child) (List.mem_cons_self _ _)
    rcases h with h1 | hrest
    · rcases h1 with h2 | h3
      · rw [hhead] at h2; exact absurd h2 (by simp)
      · cases child with
        | dir readable children =>
          rw [Bool.or_eq_false_iff] at h3
          obtain ⟨hle, hbad⟩ := h3
          have hd : d > 1 := by simp at hle; omega
          refine ⟨(FsNode.dir readable children, joinPath pre file_name, d - 1),
            ?_, hbad⟩
          simp [pushItems, if_pos hd]
        | file => simp at h3
        | symlink => simp at h3
        | other => simp at h3
        | badMeta => simp [fileTypeOf] at hhead
    · obtain ⟨it, hit, hbad⟩ := ih hrest
        (fun p hp => hins p (List.mem_cons_of_mem _ hp))
      refine ⟨it, ?_, hbad⟩
      cases child with
      | dir readable children =>
        by_cases hd : d > 1
        · simp [pushItems, if_pos hd, hit]
        · simp [pushItems, if_neg hd, hit]
      | file => simpa [pushItems] using hit
      | symlink => simpa [pushItems] using hit
      | other => simpa [pushItems] using hit
      | badMeta => simpa [pushItems] using hit

theorem flatMap_reverse_perm {α β : Type} (l : List α) (f : α → List β) :
    List.Perm (l.reverse.flatMap f) (l.flatMap f) := by
  have h := ((List.reverse_perm l).map f).flatten
  simpa [List.flatMap_def] using h

/-- The entries contributed by one directory's children, together with the
entries its pushed sub-directories will contribute, are a permutation of the
declarative reachable set. -/
theorem perDir (pre : String) (d : Nat) :
    ∀ cs : List (String × FsNode),
      List.Perm (cs.map (mkEntry pre) ++ (pushItems pre d cs).flatMap itemReach)
        ((reachableFrom cs pre d).map truncEntry) := by
  intro cs
  induction cs with
  | nil =>
    rw [reachableFrom.eq_def]
    simp [pushItems]
  | cons p rest ih =>
    obtain ⟨file_name, child⟩ := p
    rw [reachableFrom.eq_def]
    cases child with
    | dir readable children =>
      by_cases hd : d > 1
      · simp only [List.map_cons, pushItems, if_pos hd, List.flatMap_cons,
          List.cons_append, List.map_append, itemReach, childrenOf,
          mkEntry, truncEntry]
        apply List.Perm.cons
        have hgoal :
            List.Perm
              (rest.map (mkEntry pre) ++
                ((reachableFrom children (joinPath pre file_name) (d - 1)).map
                    truncEntry ++
                  (pushItems pre d rest).flatMap itemReach))
              ((reachableFrom children (joinPath pre file_name) (d - 1)).map
                  truncEntry ++
                (reachableFrom rest pre d).map truncEntry) := by
          rw [← List.append_assoc]
          refine List.Perm.trans ?_
            (List.Perm.append_left _ (ih))
          rw [← List.append_assoc]
          exact List.Perm.append_right _ List.perm_append_comm
        simpa [mkEntry, truncEntry, reachableSub, hd] using hgoal
      · simp only [List.map_cons, pushItems, if_neg hd, List.flatMap_cons,
          List.cons_append, List.map_append, List.map_cons,
          mkEntry, truncEntry]
        exact List.Perm.cons _
          (by simpa [mkEntry, truncEntry, reachableSub, hd] using ih)
    | file =>
      simp only [List.map_cons, pushItems, List.cons_append, List.map_append,
        List.map_cons, mkEntry, truncEntry]
      exact List.Perm.cons _
        (by simpa [mkEntry, truncEntry, reachableSub] using ih)
    | symlink =>
      simp only [List.map_cons, pushItems, List.cons_append, List.map_append,
        List.map_cons, mkEntry, truncEntry]
      exact List.Perm.cons _
        (by simpa [mkEntry, truncEntry, reachableSub] using ih)
    | other =>
      simp only [List.map_cons, pushItems, List.cons_append, List.map_append,
        List.map_cons, mkEntry, truncEntry]
      exact List.Perm.cons _
        (by simpa [mkEntry, truncEntry, reachableSub] using ih)
    | badMeta =>
      simp only [List.map_cons, pushItems, List.cons_append, List.map_append,
        List.map_cons, mkEntry, truncEntry]
      exact List.Perm.cons _
        (by simpa [mkEntry, truncEntry, reachableSub] using ih)

/-- Success characterization of the traversal loop: when every stack item is
good, the loop succeeds and produces (a permutation of) the accumulated entries
plus everything reachable from the stack. -/
theorem collectLoopFuel_ok :
    ∀ (fuel : Nat) (stack : List StackItem) (acc : List DirEntry),
      stackWeight stack ≤ fuel →
      (∀ it ∈ stack, goodNode it.1 it.2.2 = true) →
      ∃ l, collectLoopFuel fuel stack acc = .ok l ∧
        List.Perm l (acc ++ stackReach stack) := by
  intro fuel
  induction fuel with
  | zero =>
    intro stack acc hf _
    cases stack with
    | nil => exact ⟨acc, rfl, by simp [stackReach]⟩
    | cons it rest =>
      exfalso
      obtain ⟨n, p, d⟩ := it
      have : 1 ≤ nodeWeight n := by cases n <;> simp [nodeWeight]
      simp [stackWeight] at hf
      omega
  | succ fuel ih =>
    intro stack acc hf hg
    cases stack with
    | nil => exact ⟨acc, rfl, by simp [stackReach]⟩
    | cons it rest =>
      obtain ⟨n, p, d⟩ := it
      have hhead : goodNode n d = true := hg (n, p, d) (List.mem_cons_self _ _)
      cases n with
      | dir readable children =>
        cases readable with
        | true =>
          have hgc : goodChildren children d = true := by
            rw [goodNode.eq_def] at hhead
            simpa using hhead
          have hins := goodChildren_inspectable d children hgc
          have hadq : stackWeight ((pushItems p d children).reverse ++ rest) ≤ fuel := by
            have ha := stackWeight_append ((pushItems p d children).reverse) rest
            have hb := stackWeight_reverse (pushItems p d children)
            have hc := stackWeight_pushItems p d children
            simp only [stackWeight, nodeWeight] at hf
            omega
          have hgood : ∀ it ∈ (pushItems p d children).reverse ++ rest,
              goodNode it.1 it.2.2 = true := by
            intro it hit
            rcases List.mem_append.mp hit with h | h
            · exact goodChildren_pushed p d children hgc it (List.mem_reverse.mp h)
            · exact hg it (List.mem_cons_of_mem _ h)
          obtain ⟨l, hl, hperm⟩ := ih ((pushItems p d children).reverse ++ rest)
            (acc ++ children.map (mkEntry p)) hadq hgood
          simp only [collectLoopFuel]
          rw [readChildren_ok p d children acc rest hins]
          refine ⟨l, hl, ?_⟩
          have step : List.Perm
              ((acc ++ children.map (mkEntry p)) ++
                stackReach ((pushItems p d children).reverse ++ rest))
              (acc ++ stackReach ((FsNode.dir true children, p, d) :: rest)) := by
            have h1 : stackReach ((pushItems p d children).reverse ++ rest) =
                stackReach ((pushItems p d children).reverse) ++ stackReach rest := by
              simp [stackReach]
            have h2 : List.Perm (stackReach ((pushItems p d children).reverse))
                (stackReach (pushItems p d children)) := flatMap_reverse_perm _ _
            have h4 : stackReach ((FsNode.dir true children, p, d) :: rest) =
                (reachableFrom children p d).map truncEntry ++ stackReach rest := by
              simp [stackReach, itemReach, childrenOf]
            rw [h1, h4, List.append_assoc]
            refine List.Perm.append_left acc ?_
            refine List.Perm.trans (List.Perm.append_left _
              (List.Perm.append_right _ h2)) ?_
            rw [← List.append_assoc]
            exact List.Perm.append_right _ (perDir p d children)
          exact hperm.trans step
        | false => exact absurd hhead (by rw [goodNode.eq_def]; simp)
      | file => exact absurd hhead (by rw [goodNode.eq_def]; simp)
      | symlink => exact absurd hhead (by rw [goodNode.eq_def]; simp)
      | other => exact absurd hhead (by rw [goodNode.eq_def]; simp)
      | badMeta => exact absurd hhead (by rw [goodNode.eq_def]; simp)

/-- Failure characterization of the traversal loop: a bad item anywhere on the
stack aborts the whole operation with a read or inspect error. -/
theorem collectLoopFuel_err :
    ∀ (fuel : Nat) (stack : List StackItem) (acc : List DirEntry),
      stackWeight stack ≤ fuel →
      (∃ it ∈ stack, goodNode it.1 it.2.2 = false) →
      ∃ msg, collectLoopFuel fuel stack acc = .error msg ∧
        (msg = "failed to read directory" ∨ msg = "failed to inspect entry") := by
  intro fuel
  induction fuel with
  | zero =>
    intro stack acc hf hbad
    cases stack with
    | nil => obtain ⟨it, hit, _⟩ := hbad; simp at hit
    | cons it rest =>
      exfalso
      obtain ⟨n, p, d⟩ := it
      have : 1 ≤ nodeWeight n := by cases n <;> simp [nodeWeight]
      simp [stackWeight] at hf
      omega
  | succ fuel ih =>
    intro stack acc hf hbad
    cases stack with
    | nil => obtain ⟨it, hit, _⟩ := hbad; simp at hit
    | cons it rest =>
      obtain ⟨n, p, d⟩ := it
      cases n with
      | dir readable children =>
        cases readable with
        | true =>
          by_cases hgc : goodChildren children d = true
          · -- head is good: any bad item lives in the tail or in a pushed child
            have hins := goodChildren_inspectable d children hgc
            have hadq : stackWeight ((pushItems p d children).reverse ++ rest) ≤ fuel := by
              have ha := stackWeight_append ((pushItems p d children).reverse) rest
              have hb := stackWeight_reverse (pushItems p d children)
              have hc := stackWeight_pushItems p d children
              simp only [stackWeight, nodeWeight] at hf
              omega
            have hbad2 : ∃ it ∈ (pushItems p d children).reverse ++ rest,
                goodNode it.1 it.2.2 = false := by
              obtain ⟨it, hit, hb⟩ := hbad
              rcases List.mem_cons.mp hit with h1 | h2
              · exfalso
                rw [h1] at hb
                rw [goodNode.eq_def] at hb
                simp [hgc] at hb
              · exact ⟨it, List.mem_append.mpr (Or.inr h2), hb⟩
            obtain ⟨msg, hm, hmor⟩ := ih ((pushItems p d children).reverse ++ rest)
              (acc ++ children.map (mkEntry p)) hadq hbad2
            simp only [collectLoopFuel]
            rw [readChildren_ok p d children acc rest hins]
            exact ⟨msg, hm, hmor⟩
          · -- head itself is bad
            by_cases hac : ∀ q ∈ children, (fileTypeOf q.2).isSome
            · -- all inspectable, so a pushed child directory is bad
              have hadq : stackWeight ((pushItems p d children).reverse ++ rest) ≤ fuel := by
                have ha := stackWeight_append ((pushItems p d children).reverse) rest
                have hb := stackWeight_reverse (pushItems p d children)
                have hc := stackWeight_pushItems p d children
                simp only [stackWeight, nodeWeight] at hf
                omega
              obtain ⟨it, hit, hb⟩ := goodChildren_bad_pushed p d children
                (Bool.eq_false_iff.mpr hgc) hac
              have hbad2 : ∃ it ∈ (pushItems p d children).reverse ++ rest,
                  goodNode it.1 it.2.2 = false :=
                ⟨it, List.mem_append.mpr (Or.inl (List.mem_reverse.mpr hit)), hb⟩
              obtain ⟨msg, hm, hmor⟩ := ih ((pushItems p d children).reverse ++ rest)
                (acc ++ children.map (mkEntry p)) hadq hbad2
              simp only [collectLoopFuel]
              rw [readChildren_ok p d children acc rest hac]
              exact ⟨msg, hm, hmor⟩
            · -- some child's inspection fails
              push_neg at hac
              obtain ⟨q, hq, hqn⟩ := hac
              have hqnone : fileTypeOf q.2 = none := by
                cases hqq : fileTypeOf q.2 with
                | none => rfl
                | some ft => rw [hqq] at hqn; simp at hqn
              simp only [collectLoopFuel]
              rw [readChildren_err p d children acc rest ⟨q, hq, hqnone⟩]
              exact ⟨"failed to inspect entry", rfl, Or.inr rfl⟩
        | false =>
          exact ⟨"failed to read directory", rfl, Or.inl rfl⟩
      | file => exact ⟨"failed to read directory", rfl, Or.inl rfl⟩
      | symlink => exact ⟨"failed to read directory", rfl, Or.inl rfl⟩
      | other => exact ⟨"failed to read directory", rfl, Or.inl rfl⟩
      | badMeta => exact ⟨"failed to read directory", rfl, Or.inl rfl⟩

/-- A good root collects successfully, producing a permutation of the
declarative reachable set (with truncated names). -/
theorem collect_entries_ok (root : FsNode) (rp : String) (depth : Nat)
    (hg : goodNode root depth = true) :
    ∃ l, collect_entries root rp depth [] = .ok l ∧
      List.Perm l ((reachableFrom (childrenOf root) rp depth).map truncEntry) := by
  obtain ⟨l, hl, hp⟩ := collectLoopFuel_ok (stackWeight [(root, rp, depth)])
    [(root, rp, depth)] [] (le_refl _)
    (by
      intro it hit
      have : it = (root, rp, depth) := by simpa using hit
      rw [this]
      exact hg)
  exact ⟨l, hl, by simpa [stackReach, itemReach] using hp⟩

/-- A bad root (some read or inspect failure within the depth bound) makes the
collection fail with a read or inspect error. -/
theorem collect_entries_err (root : FsNode) (rp : String) (depth : Nat)
    (hg : goodNode root depth = false) :
    ∃ msg, collect_entries root rp depth [] = .error msg ∧
      (msg = "failed to read directory" ∨ msg = "failed to inspect entry") :=
  collectLoopFuel_err (stackWeight [(root, rp, depth)]) [(root, rp, depth)] []
    (le_refl _)
    ⟨(root, rp, depth), List.mem_singleton.mpr rfl, hg⟩

/-- Collection succeeds only on good roots. -/
theorem collect_entries_good_of_ok (root : FsNode) (rp : String) (depth : Nat)
    (l : List DirEntry) (h : collect_entries root rp depth [] = .ok l) :
    goodNode root depth = true := by
  by_contra hng
  obtain ⟨msg, hm, _⟩ := collect_entries_err root rp depth
    (Bool.eq_false_iff.mpr hng)
  rw [h] at hm
  exact Except.noConfusion hm

/-- Whatever collection returns is a permutation of the declarative reachable
set. -/
theorem collect_entries_perm_reach (root : FsNode) (rp : String) (depth : Nat)
    (l : List DirEntry) (h : collect_entries root rp depth [] = .ok l) :
    List.Perm l ((reachableFrom (childrenOf root) rp depth).map truncEntry) := by
  obtain ⟨l2, hl2, hp⟩ :=
    collect_entries_ok root rp depth (collect_entries_good_of_ok root rp depth l h)
  rw [h] at hl2
  injection hl2 with he
  rw [he]
  exact hp

/-! ### The byte-wise lexicographic order -/

theorem bytesLe_cons_lt {x y : Nat} (as bs : List Nat) (h : x < y) :
    bytesLe (x :: as) (y :: bs) = true := by
  simp [bytesLe, if_pos h]

theorem bytesLe_cons_gt {x y : Nat} (as bs : List Nat) (h : y < x) :
    bytesLe (x :: as) (y :: bs) = false := by
  simp [bytesLe, if_neg (show ¬ x < y by omega), if_pos h]

theorem bytesLe_cons_same (x : Nat) (as bs : List Nat) :
    bytesLe (x :: as) (x :: bs) = bytesLe as bs := by
  simp [bytesLe, if_neg (show ¬ x < x by omega)]

theorem bytesLe_total : ∀ a b : List Nat, bytesLe a b = true ∨ bytesLe b a = true := by
  intro a
  induction a with
  | nil => intro b; exact Or.inl rfl
  | cons x as ih =>
    intro b
    cases b with
    | nil => exact Or.inr rfl
    | cons y bs =>
      rcases Nat.lt_trichotomy x y with h | h | h
      · exact Or.inl (bytesLe_cons_lt as bs h)
      · rw [h, bytesLe_cons_same, bytesLe_cons_same]
        exact ih bs
      · exact Or.inr (bytesLe_cons_lt bs as h)

theorem bytesLe_trans : ∀ a b c : List Nat,
    bytesLe a b = true → bytesLe b c = true → bytesLe a c = true := by
  intro a
  induction a with
  | nil => intro b c _ _; rfl
  | cons x as ih =>
    intro b c hab hbc
    cases b with
    | nil => simp [bytesLe] at hab
    | cons y bs =>
      cases c with
      | nil => simp [bytesLe] at hbc
      | cons z cs =>
        rcases Nat.lt_trichotomy x y with h1 | h1 | h1
        · rcases Nat.lt_trichotomy y z with h2 | h2 | h2
          · exact bytesLe_cons_lt as cs (by omega)
          · exact bytesLe_cons_lt as cs (by omega)
          · rw [bytesLe_cons_gt bs cs h2] at hbc
            exact absurd hbc (by simp)
        · rw [h1] at hab ⊢
          rw [bytesLe_cons_same] at hab
          rcases Nat.lt_trichotomy y z with h2 | h2 | h2
          · exact bytesLe_cons_lt as cs h2
          · rw [h2] at hbc ⊢
            rw [bytesLe_cons_same] at hbc
            rw [bytesLe_cons_same]
            exact ih bs cs hab hbc
          · rw [bytesLe_cons_gt bs cs h2] at hbc
            exact absurd hbc (by simp)
        · rw [bytesLe_cons_gt as bs h1] at hab
          exact absurd hab (by simp)

theorem bytesLe_antisymm : ∀ a b : List Nat,
    bytesLe a b = true → bytesLe b a = true → a = b := by
  intro a
  induction a with
  | nil =>
    intro b _ hba
    cases b with
    | nil => rfl
    | cons y bs => simp [bytesLe] at hba
  | cons x as ih =>
    intro b hab hba
    cases b with
    | nil => simp [bytesLe] at hab
    | cons y bs =>
      rcases Nat.lt_trichotomy x y with h | h | h
      · rw [bytesLe_cons_gt bs as h] at hba
        exact absurd hba (by simp)
      · rw [h] at hab hba ⊢
        rw [bytesLe_cons_same] at hab hba
        rw [ih bs hab hba]
      · rw [bytesLe_cons_gt as bs h] at hab
        exact absurd hab (by simp)

instance : IsTotal DirEntry entryLe :=
  ⟨fun a b => bytesLe_total (utf8Bytes a.name) (utf8Bytes b.name)⟩

instance : IsTrans DirEntry entryLe :=
  ⟨fun _ _ _ hab hbc => bytesLe_trans _ _ _ hab hbc⟩

theorem sortEntries_perm (l : List DirEntry) : (sortEntries l).Perm l :=
  List.perm_insertionSort entryLe l

theorem sortEntries_sorted (l : List DirEntry) :
    List.Sorted entryLe (sortEntries l) :=
  List.sorted_insertionSort entryLe l

theorem pushItems_depth_le_one (pre : String) (d : Nat) (hd : ¬ d > 1) :
    ∀ cs : List (String × FsNode), pushItems pre d cs = [] := by
  intro cs
  induction cs with
  | nil => rfl
  | cons p rest ih =>
    obtain ⟨file_name, child⟩ := p
    cases child with
    | dir readable children => simp [pushItems, if_neg hd, ih]
    | file => simpa [pushItems] using ih
    | symlink => simpa [pushItems] using ih
    | other => simpa [pushItems] using ih
    | badMeta => simpa [pushItems] using ih

theorem collectLoopFuel_nil (fuel : Nat) (acc : List DirEntry) :
    collectLoopFuel fuel [] acc = .ok acc := by
  cases fuel <;> rfl

theorem collectLoopFuel_dir (fuel : Nat) (hm : 1 ≤ fuel)
    (children : List (String × FsNode)) (pre : String) (d : Nat)
    (stack : List StackItem) (entries : List DirEntry) :
    collectLoopFuel fuel ((FsNode.dir true children, pre, d) :: stack) entries =
      match readChildren pre d children entries stack with
      | .error e => .error e
      | .ok res => collectLoopFuel (fuel - 1) res.2 res.1 := by
  cases fuel with
  | zero => omega
  | succ f => simp [collectLoopFuel]

/-- With depth budget 1, collection records exactly the root's direct children,
in discovery order, and descends nowhere. -/
theorem collect_entries_depth_one (children : List (String × FsNode))
    (rp : String) (hins : ∀ p ∈ children, (fileTypeOf p.2).isSome) :
    collect_entries (.dir true children) rp 1 [] =
      .ok (children.map (mkEntry rp)) := by
  unfold collect_entries
  rw [collectLoopFuel_dir _ (by simp [stackWeight, nodeWeight]) children rp 1 [] []]
  rw [readChildren_ok rp 1 children [] [] hins]
  simp only []
  rw [pushItems_depth_le_one rp 1 (by omega) children]
  simp [collectLoopFuel_nil]

/-! ### Pagination and formatting lemmas -/

theorem formatSlice_length (s : Nat) (slice : List DirEntry) :
    (formatSlice s slice).length = slice.length := by
  simp [formatSlice, List.enum_length]

theorem formatSlice_getElem (s : Nat) (slice : List DirEntry) (i : Nat) :
    (formatSlice s slice)[i]? = (slice[i]?).map fun e => renderLine (s + i + 1) e := by
  simp only [formatSlice, List.getElem?_map, List.getElem?_enum]
  cases slice[i]? <;> simp

theorem list_dir_slice_err (root : FsNode) (offset limit depth : Nat) (msg : String)
    (hc : collect_entries root "" depth [] = .error msg) :
    list_dir_slice root offset limit depth = .error msg := by
  unfold list_dir_slice
  rw [hc]

theorem list_dir_slice_empty (root : FsNode) (offset limit depth : Nat)
    (hc : collect_entries root "" depth [] = .ok []) :
    list_dir_slice root offset limit depth = .ok [] := by
  unfold list_dir_slice
  rw [hc]
  rfl

theorem list_dir_slice_offset_err (root : FsNode) (offset limit depth : Nat)
    (es : List DirEntry) (hc : collect_entries root "" depth [] = .ok es)
    (hne : es ≠ []) (hoff : (sortEntries es).length ≤ offset - 1) :
    list_dir_slice root offset limit depth =
      .error "offset exceeds directory entry count" := by
  unfold list_dir_slice
  rw [hc]
  have hne2 : (sortEntries es).isEmpty = false := by
    have := (sortEntries_perm es).length_eq
    cases hs : sortEntries es with
    | nil =>
      rw [hs] at this
      cases es with
      | nil => exact absurd rfl hne
      | cons a l => simp at this
    | cons a l => rfl
  simp only [hne2, Bool.false_eq_true, if_false, ge_iff_le, if_pos hoff]

theorem list_dir_slice_eq_ok (root : FsNode) (offset limit depth : Nat)
    (es : List DirEntry) (hc : collect_entries root "" depth [] = .ok es)
    (hoff : offset - 1 < (sortEntries es).length)
    (hov : offset - 1 + limit < USIZE_SIZE) :
    list_dir_slice root offset limit depth = .ok (formatSlice (offset - 1)
      (((sortEntries es).drop (offset - 1)).take
        (min ((offset - 1) + limit) (sortEntries es).length - (offset - 1)))) := by
  unfold list_dir_slice
  rw [hc]
  have hne2 : (sortEntries es).isEmpty = false := by
    cases hs : sortEntries es with
    | nil => rw [hs] at hoff; simp at hoff
    | cons a l => rfl
  have hmod : (offset - 1 + limit) % USIZE_SIZE = offset - 1 + limit :=
    Nat.mod_eq_of_lt hov
  simp only [hne2, Bool.false_eq_true, if_false, ge_iff_le,
    if_neg (by omega : ¬ (sortEntries es).length ≤ offset - 1), hmod,
    if_neg (by omega :
      ¬ min (offset - 1 + limit) (sortEntries es).length < offset - 1)]

/-- With an in-range offset but a limit making `start_index + limit` overflow
the `usize` addition, the slicing panics: the wrapped bound falls strictly
below `start_index`. -/
theorem list_dir_slice_panic (root : FsNode) (offset limit depth : Nat)
    (es : List DirEntry) (hc : collect_entries root "" depth [] = .ok es)
    (hoff : offset - 1 < (sortEntries es).length)
    (hstart : offset - 1 < USIZE_SIZE) (hlim : limit < USIZE_SIZE)
    (hov : USIZE_SIZE ≤ offset - 1 + limit) :
    list_dir_slice root offset limit depth = .panic "slice index out of range" := by
  unfold list_dir_slice
  rw [hc]
  have hne2 : (sortEntries es).isEmpty = false := by
    cases hs : sortEntries es with
    | nil => rw [hs] at hoff; simp at hoff
    | cons a l => rfl
  have hmod : (offset - 1 + limit) % USIZE_SIZE = offset - 1 + limit - USIZE_SIZE := by
    rw [Nat.mod_eq_sub_mod hov, Nat.mod_eq_of_lt (by omega)]
  simp only [hne2, Bool.false_eq_true, if_false, ge_iff_le,
    if_neg (by omega : ¬ (sortEntries es).length ≤ offset - 1), hmod,
    if_pos (by omega :
      min (offset - 1 + limit - USIZE_SIZE) (sortEntries es).length < offset - 1)]

/-- Once the offset check passes, the operation never returns the
offset-out-of-range (or any) error: it either succeeds or panics. -/
theorem list_dir_slice_not_error (root : FsNode) (offset limit depth : Nat)
    (es : List DirEntry) (hc : collect_entries root "" depth [] = .ok es)
    (hoff : offset - 1 < (sortEntries es).length) :
    ∀ msg, list_dir_slice root offset limit depth ≠ .error msg := by
  intro msg
  unfold list_dir_slice
  rw [hc]
  have hne2 : (sortEntries es).isEmpty = false := by
    cases hs : sortEntries es with
    | nil => rw [hs] at hoff; simp at hoff
    | cons a l => rfl
  simp only [hne2, Bool.false_eq_true, if_false, ge_iff_le,
    if_neg (by omega : ¬ (sortEntries es).length ≤ offset - 1)]
  split <;> simp

/-! ### Claim theorems -/

/-- C1 (amended): for every tree whose collection succeeds with a non-empty
sorted entry set and every request with `1 ≤ offset ≤ total_entries` whose
window bound `offset - 1 + limit` does not overflow the `usize` addition, the
operation returns one line per entry of the contiguous slice of the sorted set
starting at `offset`; the number of lines is
`min limit (total_entries - offset + 1)` and the i-th line renders the entry
of absolute 1-indexed rank `offset + i` in the full sorted set with exactly
that ordinal, so the ordinals form a contiguous increasing run starting at
`offset`.  When the addition overflows, the program panics instead of
returning lines. -/
theorem C1_pagination_window (root : FsNode) (offset limit depth : Nat)
    (es : List DirEntry) (hc : collect_entries root "" depth [] = .ok es)
    (h1 : 1 ≤ offset) (h2 : offset ≤ (sortEntries es).length)
    (hov : offset - 1 + limit < USIZE_SIZE) :
    ∃ lines, list_dir_slice root offset limit depth = .ok lines ∧
      lines.length = min limit ((sortEntries es).length - offset + 1) ∧
      ∀ i, i < lines.length →
        ∃ e, (sortEntries es)[offset - 1 + i]? = some e ∧
          lines[i]? = some (renderLine (offset + i) e) := by
  have key := list_dir_slice_eq_ok root offset limit depth es hc (by omega) hov
  refine ⟨_, key, ?_, ?_⟩
  · rw [formatSlice_length, List.length_take, List.length_drop]
    omega
  · intro i hi
    rw [formatSlice_length, List.length_take, List.length_drop] at hi
    have hidx : offset - 1 + i < (sortEntries es).length := by omega
    refine ⟨(sortEntries es)[offset - 1 + i], List.getElem?_eq_getElem hidx, ?_⟩
    rw [formatSlice_getElem, List.getElem?_take, if_pos (by omega),
      List.getElem?_drop, List.getElem?_eq_getElem hidx]
    have harith : offset - 1 + i + 1 = offset + i := by omega
    simp [harith]

/-- C1 witness: a concrete two-entry directory listed with offset 2. -/
theorem C1_witness :
    ∃ lines,
      list_dir_slice (FsNode.dir true [("b", FsNode.file), ("a", FsNode.file)])
          2 5 1 = .ok lines ∧
      lines.length =
        min 5 ((sortEntries [⟨"b", DirEntryKind.file⟩, ⟨"a", DirEntryKind.file⟩]).length - 2 + 1) ∧
      ∀ i, i < lines.length →
        ∃ e, (sortEntries [⟨"b", DirEntryKind.file⟩, ⟨"a", DirEntryKind.file⟩])[2 - 1 + i]? = some e ∧
          lines[i]? = some (renderLine (2 + i) e) :=
  C1_pagination_window
    (FsNode.dir true [("b", FsNode.file), ("a", FsNode.file)]) 2 5 1
    [⟨"b", DirEntryKind.file⟩, ⟨"a", DirEntryKind.file⟩]
    (by decide) (by decide) (by decide) (by decide)

/-- C1 counterexample: with `offset = 2` in range on a two-entry directory but
`limit = usize::MAX`, the `usize` window addition overflows — the wrapped
bound `(1 + (2^64 - 1)) % 2^64 = 0` falls below `start_index`, the slice
expression panics, and no lines are returned, refuting the claim for
unrestricted limits. -/
theorem C1_counterexample :
    1 ≤ 2 ∧
    2 ≤ (sortEntries
      [⟨"b", DirEntryKind.file⟩, ⟨"a", DirEntryKind.file⟩]).length ∧
    list_dir_slice (FsNode.dir true [("b", FsNode.file), ("a", FsNode.file)])
        2 (USIZE_SIZE - 1) 1 = .panic "slice index out of range" :=
  ⟨by decide, by decide, by decide⟩

/-- C2: with a successfully collected entry set and a 1-indexed offset, the
operation fails exactly when the entry set is non-empty and `offset` exceeds
the entry count, the only failure is the offset-out-of-range error, and an
empty entry set yields a successful empty output for every offset and limit. -/
theorem C2_offset_out_of_range (root : FsNode) (offset limit depth : Nat)
    (es : List DirEntry) (hc : collect_entries root "" depth [] = .ok es)
    (h1 : 1 ≤ offset) :
    ((∃ msg, list_dir_slice root offset limit depth = .error msg) ↔
      (es ≠ [] ∧ es.length < offset)) ∧
    (∀ msg, list_dir_slice root offset limit depth = .error msg →
      msg = "offset exceeds directory entry count") ∧
    (es = [] → list_dir_slice root offset limit depth = .ok []) := by
  have hlen : (sortEntries es).length = es.length := (sortEntries_perm es).length_eq
  by_cases hemp : es = []
  · subst hemp
    have hok := list_dir_slice_empty root offset limit depth hc
    refine ⟨?_, ?_, fun _ => hok⟩
    · constructor
      · intro ⟨msg, hmsg⟩
        rw [hok] at hmsg
        exact absurd hmsg (by simp)
      · intro ⟨hne, _⟩
        exact absurd rfl hne
    · intro msg hmsg
      rw [hok] at hmsg
      exact absurd hmsg (by simp)
  · by_cases hbig : es.length < offset
    · have herr := list_dir_slice_offset_err root offset limit depth es hc hemp
        (by omega)
      refine ⟨?_, ?_, fun h => absurd h hemp⟩
      · exact ⟨fun _ => ⟨hemp, hbig⟩, fun _ => ⟨_, herr⟩⟩
      · intro msg hmsg
        rw [herr] at hmsg
        injection hmsg with he
        rw [he]
    · have hne := list_dir_slice_not_error root offset limit depth es hc (by omega)
      refine ⟨?_, ?_, fun h => absurd h hemp⟩
      · constructor
        · intro ⟨msg, hmsg⟩
          exact absurd hmsg (hne msg)
        · intro ⟨_, hb⟩
          exact absurd hb hbig
      · intro msg hmsg
        exact absurd hmsg (hne msg)

/-- C2 witness: offset 10 on a two-entry directory fails with the
offset-out-of-range message, and an empty directory succeeds with offset 10. -/
theorem C2_witness :
    ((∃ msg,
        list_dir_slice (FsNode.dir true [("b", FsNode.file), ("a", FsNode.file)])
          10 1 1 = .error msg) ↔
      (([⟨"b", DirEntryKind.file⟩, ⟨"a", DirEntryKind.file⟩] :
          List DirEntry) ≠ [] ∧
        ([⟨"b", DirEntryKind.file⟩, ⟨"a", DirEntryKind.file⟩] :
          List DirEntry).length < 10)) ∧
    (∀ msg,
      list_dir_slice (FsNode.dir true [("b", FsNode.file), ("a", FsNode.file)])
          10 1 1 = .error msg →
        msg = "offset exceeds directory entry count") ∧
    (([⟨"b", DirEntryKind.file⟩, ⟨"a", DirEntryKind.file⟩] :
        List DirEntry) = [] →
      list_dir_slice (FsNode.dir true [("b", FsNode.file), ("a", FsNode.file)])
          10 1 1 = .ok []) :=
  C2_offset_out_of_range
    (FsNode.dir true [("b", FsNode.file), ("a", FsNode.file)]) 10 1 1
    [⟨"b", DirEntryKind.file⟩, ⟨"a", DirEntryKind.file⟩]
    (by decide) (by decide)

/-- C7: a request with zero offset, zero limit, zero depth, or a non-absolute
path is rejected with a validation error that does not depend on the
filesystem (no traversal takes place), and that is distinct from every
filesystem or range error message; omitted fields default to offset 1,
limit 2000, depth 2. -/
theorem C7_request_validation (args : ListDirArgs) (root : FsNode)
    (hbad : args.offset = 0 ∨ args.limit = 0 ∨ args.depth = 0 ∨
      isAbsolutePath args.dir_path = false) :
    (∃ msg, handle args root = .error msg ∧
      (∀ fs2 : FsNode, handle args fs2 = .error msg) ∧
      msg ≠ "failed to read directory" ∧
      msg ≠ "failed to inspect entry" ∧
      msg ≠ "offset exceeds directory entry count" ∧
      msg ≠ "unreachable: loop variant exhausted") ∧
    default_offset = 1 ∧ default_limit = 2000 ∧ default_depth = 2 := by
  refine ⟨?_, rfl, rfl, rfl⟩
  by_cases h0 : args.offset = 0
  · exact ⟨"offset must be a 1-indexed entry number",
      by simp [handle, h0], fun fs2 => by simp [handle, h0],
      by decide, by decide, by decide, by decide⟩
  · by_cases h1 : args.limit = 0
    · exact ⟨"limit must be greater than zero",
        by simp [handle, h0, h1], fun fs2 => by simp [handle, h0, h1],
        by decide, by decide, by decide, by decide⟩
    · by_cases h2 : args.depth = 0
      · exact ⟨"depth must be greater than zero",
          by simp [handle, h0, h1, h2],
          fun fs2 => by simp [handle, h0, h1, h2],
          by decide, by decide, by decide, by decide⟩
      · have h3 : isAbsolutePath args.dir_path = false := by
          rcases hbad with h | h | h | h
          · exact absurd h h0
          · exact absurd h h1
          · exact absurd h h2
          · exact h
        exact ⟨"dir_path must be an absolute path",
          by simp [handle, h0, h1, h2, h3],
          fun fs2 => by simp [handle, h0, h1, h2, h3],
          by decide, by decide, by decide, by decide⟩

/-- C7 witness: a zero-offset request on a relative path is rejected uniformly. -/
theorem C7_witness :
    (∃ msg, handle ⟨"x", 0, 5, 2⟩ FsNode.file = .error msg ∧
      (∀ fs2 : FsNode, handle ⟨"x", 0, 5, 2⟩ fs2 = .error msg) ∧
      msg ≠ "failed to read directory" ∧
      msg ≠ "failed to inspect entry" ∧
      msg ≠ "offset exceeds directory entry count" ∧
      msg ≠ "unreachable: loop variant exhausted") ∧
    default_offset = 1 ∧ default_limit = 2000 ∧ default_depth = 2 :=
  C7_request_validation ⟨"x", 0, 5, 2⟩ FsNode.file (Or.inl rfl)

/-- C10: the kind of an entry is computed from the entry's own file-type
metadata: a file type reporting a symlink is classified `Symlink` even if it
also reports a directory or file (a symlink's target is never consulted);
`Other` is returned exactly when the metadata reports none of
symlink/directory/file; and for every node of the modelled filesystem the
classification of its reported file type is the node's own kind. -/
theorem C10_kind_from_own_metadata :
    (∀ ft : FileType, ft.is_symlink = true →
      DirEntryKind.ofFileType ft = DirEntryKind.symlink) ∧
    (∀ ft : FileType, DirEntryKind.ofFileType ft = DirEntryKind.other ↔
      (ft.is_symlink = false ∧ ft.is_dir = false ∧ ft.is_file = false)) ∧
    (∀ c : FsNode, ∀ ft : FileType, fileTypeOf c = some ft →
      DirEntryKind.ofFileType ft = kindOf c) := by
  refine ⟨?_, ?_, fun c ft h => kindOf_ofFileType c ft h⟩
  · intro ft h
    obtain ⟨s, d, f⟩ := ft
    cases s <;> cases d <;> cases f <;> simp_all [DirEntryKind.ofFileType]
  · intro ft
    obtain ⟨s, d, f⟩ := ft
    cases s <;> cases d <;> cases f <;> simp [DirEntryKind.ofFileType]

/-- C10 witness: metadata reporting both symlink and directory (a symlink
whose target is a directory, were the target followed) is classified
`Symlink`. -/
theorem C10_witness :
    DirEntryKind.ofFileType ⟨true, true, false⟩ = DirEntryKind.symlink ∧
    (DirEntryKind.ofFileType ⟨false, false, false⟩ = DirEntryKind.other ↔
      ((false : Bool) = false ∧ (false : Bool) = false ∧ (false : Bool) = false)) ∧
    DirEntryKind.ofFileType ⟨true, false, false⟩ = kindOf FsNode.symlink :=
  ⟨C10_kind_from_own_metadata.1 ⟨true, true, false⟩ rfl,
   C10_kind_from_own_metadata.2.1 ⟨false, false, false⟩,
   C10_kind_from_own_metadata.2.2 FsNode.symlink ⟨true, false, false⟩ rfl⟩

/-! ### Truncation lemmas -/

/-- UTF-8 byte count of a character list. -/
def bytesOfChars (l : List Char) : Nat := (l.flatMap charUtf8Bytes).length

theorem bytesOfChars_cons (c : Char) (l : List Char) :
    bytesOfChars (c :: l) = (charUtf8Bytes c).length + bytesOfChars l := by
  simp [bytesOfChars]

theorem takeBytesAux_isPrefix (maxBytes : Nat) :
    ∀ (cs : List Char) (used : Nat),
      ∃ t, cs = takeBytesAux maxBytes cs used ++ t := by
  intro cs
  induction cs with
  | nil => intro used; exact ⟨[], rfl⟩
  | cons c rest ih =>
    intro used
    by_cases h : used + (charUtf8Bytes c).length ≤ maxBytes
    · obtain ⟨t, ht⟩ := ih (used + (charUtf8Bytes c).length)
      exact ⟨t, by rw [takeBytesAux, if_pos h]; simpa using ht⟩
    · exact ⟨c :: rest, by rw [takeBytesAux, if_neg h]; rfl⟩

theorem takeBytesAux_le (maxBytes : Nat) :
    ∀ (cs : List Char) (used : Nat), used ≤ maxBytes →
      used + bytesOfChars (takeBytesAux maxBytes cs used) ≤ maxBytes := by
  intro cs
  induction cs with
  | nil => intro used h; simpa [takeBytesAux, bytesOfChars] using h
  | cons c rest ih =>
    intro used h
    by_cases hc : used + (charUtf8Bytes c).length ≤ maxBytes
    · rw [takeBytesAux, if_pos hc, bytesOfChars_cons]
      have := ih (used + (charUtf8Bytes c).length) hc
      omega
    · rw [takeBytesAux, if_neg hc]
      simpa [bytesOfChars] using h

theorem takeBytesAux_longest (maxBytes : Nat) :
    ∀ (cs : List Char) (used k : Nat), k ≤ cs.length →
      used + bytesOfChars (cs.take k) ≤ maxBytes →
      k ≤ (takeBytesAux maxBytes cs used).length := by
  intro cs
  induction cs with
  | nil =>
    intro used k hk _
    simp at hk
    simp [takeBytesAux, hk]
  | cons c rest ih =>
    intro used k hk hbytes
    cases k with
    | zero => omega
    | succ k =>
      rw [List.take_succ_cons, bytesOfChars_cons] at hbytes
      have hfit : used + (charUtf8Bytes c).length ≤ maxBytes := by omega
      rw [takeBytesAux, if_pos hfit]
      have := ih (used + (charUtf8Bytes c).length) k (by simpa using hk)
        (by omega)
      simpa using this

/-- C5: a name of at most 500 bytes is stored unchanged; a longer name is
stored as a prefix ending on a character boundary, of at most 500 bytes, and
no longer character-boundary prefix fits within 500 bytes (spec-modelled
`take_bytes_at_char_boundary`). -/
theorem C5_truncation (name : String) :
    (byteLen name ≤ MAX_ENTRY_LENGTH → format_entry_name name = name) ∧
    (byteLen name > MAX_ENTRY_LENGTH →
      (∃ t, name.data = (format_entry_name name).data ++ t) ∧
      byteLen (format_entry_name name) ≤ MAX_ENTRY_LENGTH ∧
      (∀ k, k ≤ name.data.length →
        byteLen ⟨name.data.take k⟩ ≤ MAX_ENTRY_LENGTH →
        k ≤ (format_entry_name name).data.length)) := by
  constructor
  · intro h
    rw [format_entry_name, if_neg (by omega)]
  · intro h
    rw [format_entry_name, if_pos h]
    refine ⟨?_, ?_, ?_⟩
    · obtain ⟨t, ht⟩ := takeBytesAux_isPrefix MAX_ENTRY_LENGTH name.data 0
      exact ⟨t, ht⟩
    · have := takeBytesAux_le MAX_ENTRY_LENGTH name.data 0 (by omega)
      simpa [byteLen, utf8Bytes, take_bytes_at_char_boundary, bytesOfChars]
        using this
    · intro k hk hbytes
      have := takeBytesAux_longest MAX_ENTRY_LENGTH name.data 0 k hk
        (by simpa [byteLen, utf8Bytes, bytesOfChars] using hbytes)
      simpa [take_bytes_at_char_boundary] using this

/-- ASCII name of 600 bytes (the spec's truncation example). -/
def longAsciiName : String := ⟨List.replicate 600 (Char.ofNat 97)⟩

/-- Name whose 500th byte falls inside a two-byte character: 499 ASCII bytes
then one two-byte code point. -/
def multibyteName : String :=
  ⟨List.replicate 499 (Char.ofNat 97) ++ [Char.ofNat 233]⟩

set_option maxRecDepth 40000 in
/-- C5 witness: the 600-byte ASCII name is truncated to exactly 500 bytes, and
the multibyte-boundary name is cut at 499 bytes, one short of the limit. -/
theorem C5_witness :
    ((∃ t, longAsciiName.data = (format_entry_name longAsciiName).data ++ t) ∧
      byteLen (format_entry_name longAsciiName) ≤ MAX_ENTRY_LENGTH ∧
      (∀ k, k ≤ longAsciiName.data.length →
        byteLen ⟨longAsciiName.data.take k⟩ ≤ MAX_ENTRY_LENGTH →
        k ≤ (format_entry_name longAsciiName).data.length)) ∧
    format_entry_name longAsciiName = ⟨List.replicate 500 (Char.ofNat 97)⟩ ∧
    format_entry_name multibyteName = ⟨List.replicate 499 (Char.ofNat 97)⟩ ∧
    byteLen (format_entry_name longAsciiName) = 500 ∧
    byteLen (format_entry_name multibyteName) = 499 :=
  ⟨(C5_truncation longAsciiName).2 (by decide),
   by decide, by decide, by decide, by decide⟩

/-- C6: a successful traversal records exactly (as a multiset) the entries
reachable within the depth bound — every discovered child regardless of kind,
with a child directory's children included exactly when the remaining depth
budget at the parent exceeds 1 (that is what `reachableFrom` unfolds to) — and
with depth 1 the result is exactly the root's direct children. -/
theorem C6_depth_bound (root : FsNode) (depth : Nat) (es : List DirEntry)
    (hc : collect_entries root "" depth [] = .ok es) :
    List.Perm es ((reachableFrom (childrenOf root) "" depth).map truncEntry) ∧
    (depth = 1 → es = (childrenOf root).map (mkEntry "")) := by
  refine ⟨collect_entries_perm_reach root "" depth es hc, ?_⟩
  intro h1
  subst h1
  have hg := collect_entries_good_of_ok root "" 1 es hc
  cases root with
  | dir readable children =>
    cases readable with
    | true =>
      have hgc : goodChildren children 1 = true := by
        rw [goodNode.eq_def] at hg
        simpa using hg
      have hd1 := collect_entries_depth_one children ""
        (goodChildren_inspectable 1 children hgc)
      rw [hc] at hd1
      exact Except.ok.inj hd1
    | false => rw [goodNode.eq_def] at hg; simp at hg
  | file => rw [goodNode.eq_def] at hg; simp at hg
  | symlink => rw [goodNode.eq_def] at hg; simp at hg
  | other => rw [goodNode.eq_def] at hg; simp at hg
  | badMeta => rw [goodNode.eq_def] at hg; simp at hg

/-- C6 witness: a depth-1 traversal of a two-child directory (one child a
directory with its own child) records exactly the two direct children, and the
recorded multiset equals the reachable set. -/
theorem C6_witness :
    List.Perm
      [⟨"a", DirEntryKind.file⟩, ⟨"sub", DirEntryKind.directory⟩]
      ((reachableFrom
          (childrenOf (FsNode.dir true
            [("a", FsNode.file), ("sub", FsNode.dir true [("b", FsNode.file)])]))
          "" 1).map truncEntry) ∧
    ((1 : Nat) = 1 →
      ([⟨"a", DirEntryKind.file⟩, ⟨"sub", DirEntryKind.directory⟩] :
          List DirEntry) =
        (childrenOf (FsNode.dir true
          [("a", FsNode.file), ("sub", FsNode.dir true [("b", FsNode.file)])])).map
          (mkEntry "")) :=
  C6_depth_bound
    (FsNode.dir true
      [("a", FsNode.file), ("sub", FsNode.dir true [("b", FsNode.file)])])
    1 [⟨"a", DirEntryKind.file⟩, ⟨"sub", DirEntryKind.directory⟩] (by decide)

/-- C8: when any directory read or any entry inspection within the depth bound
fails, the collection — and with it the whole operation — returns a read or
inspect error, and no entries are returned (the `Except.error` result carries
no partial listing). -/
theorem C8_abort_on_failure (root : FsNode) (offset limit depth : Nat)
    (hbad : goodNode root depth = false) :
    ∃ msg, collect_entries root "" depth [] = .error msg ∧
      list_dir_slice root offset limit depth = .error msg ∧
      (msg = "failed to read directory" ∨ msg = "failed to inspect entry") := by
  obtain ⟨msg, hm, hor⟩ := collect_entries_err root "" depth hbad
  exact ⟨msg, hm, list_dir_slice_err root offset limit depth msg hm, hor⟩

/-- C8 witness: a directory with an uninspectable entry makes the whole
operation fail even though its sibling was readable. -/
theorem C8_witness :
    ∃ msg,
      collect_entries (FsNode.dir true [("ok", FsNode.file), ("bad", FsNode.badMeta)])
          "" 1 [] = .error msg ∧
      list_dir_slice (FsNode.dir true [("ok", FsNode.file), ("bad", FsNode.badMeta)])
          1 10 1 = .error msg ∧
      (msg = "failed to read directory" ∨ msg = "failed to inspect entry") :=
  C8_abort_on_failure
    (FsNode.dir true [("ok", FsNode.file), ("bad", FsNode.badMeta)]) 1 10 1
    (by decide)

instance : IsAntisymm DirEntry nameLt :=
  ⟨fun _ _ hab hba => absurd (bytesLe_antisymm _ _ hab.1 hba.1) hab.2⟩

/-- The spec's example tree: `entry.txt`, `link` (a symlink), `nested/` with
`nested/child.txt` and `nested/deeper/` containing
`nested/deeper/grandchild.txt`. -/
def exampleTree : FsNode :=
  .dir true
    [("entry.txt", .file), ("link", .symlink),
     ("nested", .dir true
       [("child.txt", .file),
        ("deeper", .dir true [("grandchild.txt", .file)])])]

/-- C3 (amended): the emitted entry list is always sorted by byte-wise
lexicographic comparison of the stored names with kinds interleaved purely by
name; whenever no two stored names share the same byte sequence, the sorted
list — and hence the output — is independent of the order in which traversal
discovered the entries; and on the spec's example tree with depth 3, offset 1,
limit 20 the output is exactly the six expected lines. -/
theorem C3_sorted_output (es es2 : List DirEntry) (hp : es.Perm es2)
    (hnd : es.Pairwise (fun a b => utf8Bytes a.name ≠ utf8Bytes b.name)) :
    List.Sorted entryLe (sortEntries es) ∧
    sortEntries es = sortEntries es2 ∧
    list_dir_slice exampleTree 1 20 3 = .ok
      ["E1: [file] entry.txt", "E2: [symlink] link", "E3: [dir] nested",
       "E4: [file] nested/child.txt", "E5: [dir] nested/deeper",
       "E6: [file] nested/deeper/grandchild.txt"] := by
  have hsym : ∀ {x y : DirEntry},
      utf8Bytes x.name ≠ utf8Bytes y.name →
      utf8Bytes y.name ≠ utf8Bytes x.name := fun h => fun he => h he.symm
  have hnd1 : (sortEntries es).Pairwise
      (fun a b => utf8Bytes a.name ≠ utf8Bytes b.name) :=
    ((sortEntries_perm es).pairwise_iff hsym).mpr hnd
  have hnd2 : (sortEntries es2).Pairwise
      (fun a b => utf8Bytes a.name ≠ utf8Bytes b.name) :=
    ((sortEntries_perm es2).pairwise_iff hsym).mpr
      ((hp.pairwise_iff hsym).mp hnd)
  have hs1 : List.Sorted nameLt (sortEntries es) :=
    ((sortEntries_sorted es).and hnd1).imp fun h => ⟨h.1, h.2⟩
  have hs2 : List.Sorted nameLt (sortEntries es2) :=
    ((sortEntries_sorted es2).and hnd2).imp fun h => ⟨h.1, h.2⟩
  refine ⟨sortEntries_sorted es, ?_, by decide⟩
  exact List.eq_of_perm_of_sorted
    ((sortEntries_perm es).trans (hp.trans (sortEntries_perm es2).symm)) hs1 hs2

/-- Stored name shared by the two colliding long names: 500 letters `a`. -/
def collidedName : String := ⟨List.replicate 500 (Char.ofNat 97)⟩

/-- A 502-byte name: 500 letters `a` then `bb`; truncates to `collidedName`. -/
def longName1 : String :=
  ⟨List.replicate 500 (Char.ofNat 97) ++ [Char.ofNat 98, Char.ofNat 98]⟩

/-- A 501-byte name: 501 letters `a`; also truncates to `collidedName`. -/
def longName2 : String := ⟨List.replicate 501 (Char.ofNat 97)⟩

set_option maxRecDepth 100000 in
/-- C3 counterexample: two trees whose traversals discover the same entry
multiset (two long names that collide after truncation, with different kinds)
in different orders produce different outputs, so the output is not
independent of discovery order as claimed. -/
theorem C3_counterexample :
    collect_entries
        (FsNode.dir true [(longName1, FsNode.file), (longName2, FsNode.other)])
        "" 1 [] =
      .ok [⟨collidedName, DirEntryKind.file⟩, ⟨collidedName, DirEntryKind.other⟩] ∧
    collect_entries
        (FsNode.dir true [(longName2, FsNode.other), (longName1, FsNode.file)])
        "" 1 [] =
      .ok [⟨collidedName, DirEntryKind.other⟩, ⟨collidedName, DirEntryKind.file⟩] ∧
    List.Perm
      ([⟨collidedName, DirEntryKind.file⟩, ⟨collidedName, DirEntryKind.other⟩] :
        List DirEntry)
      ([⟨collidedName, DirEntryKind.other⟩, ⟨collidedName, DirEntryKind.file⟩] :
        List DirEntry) ∧
    list_dir_slice
        (FsNode.dir true [(longName1, FsNode.file), (longName2, FsNode.other)])
        1 10 1 ≠
      list_dir_slice
        (FsNode.dir true [(longName2, FsNode.other), (longName1, FsNode.file)])
        1 10 1 := by
  refine ⟨by decide, by decide, ?_, by decide⟩
  decide

/-! ### Uniqueness of relative paths -/

/-- The characters a relative-path prefix contributes: nothing when empty,
otherwise the prefix followed by the separator. -/
def preData (pre : String) : List Char :=
  if pre = "" then [] else pre.data ++ [Char.ofNat 47]

theorem joinPath_data (pre n : String) :
    (joinPath pre n).data = preData pre ++ n.data := by
  by_cases h : pre = ""
  · simp [joinPath, preData, h]
  · simp only [joinPath, preData, if_neg h, String.data_append]

theorem data_ne_nil_of_ne_empty {s : String} (h : s ≠ "") : s.data ≠ [] :=
  fun hd => h (String.ext hd)

theorem joinPath_ne_empty (pre n : String) (hn : n ≠ "") :
    joinPath pre n ≠ "" := by
  intro he
  have hd := joinPath_data pre n
  rw [he] at hd
  have : preData pre ++ n.data = [] := hd.symm
  rcases List.append_eq_nil.mp this with ⟨_, h2⟩
  exact data_ne_nil_of_ne_empty hn h2

theorem preData_joinPath (pre n : String) (hn : n ≠ "") :
    preData (joinPath pre n) = preData pre ++ n.data ++ [Char.ofNat 47] := by
  rw [preData, if_neg (joinPath_ne_empty pre n hn), joinPath_data]

/-- A stored path lies under the child named `n` of the directory with
relative prefix `pre`: it is that child's own relative path, or extends it
past a separator. -/
def entryUnder (pre n s : String) : Prop :=
  ∃ r, s.data = preData pre ++ n.data ++ r ∧
    (r = [] ∨ ∃ t, r = Char.ofNat 47 :: t)

/-- Two separator-free segments followed by nothing-or-separator-led tails can
only concatenate to the same character list if the segments are equal. -/
theorem first_segment_eq :
    ∀ (a b r1 r2 : List Char),
      Char.ofNat 47 ∉ a → Char.ofNat 47 ∉ b →
      (r1 = [] ∨ ∃ t, r1 = Char.ofNat 47 :: t) →
      (r2 = [] ∨ ∃ t, r2 = Char.ofNat 47 :: t) →
      a ++ r1 = b ++ r2 → a = b := by
  intro a
  induction a with
  | nil =>
    intro b r1 r2 _ hb hr1 _ h
    cases b with
    | nil => rfl
    | cons c bs =>
      exfalso
      rcases hr1 with h1 | ⟨t, h1⟩
      · rw [h1] at h
        exact absurd h.symm (by simp)
      · rw [h1] at h
        simp only [List.nil_append, List.cons_append, List.cons.injEq] at h
        exact hb (by rw [← h.1]; exact List.mem_cons_self _ _)
  | cons c as ih =>
    intro b r1 r2 ha hb hr1 hr2 h
    cases b with
    | nil =>
      exfalso
      rcases hr2 with h2 | ⟨t, h2⟩
      · rw [h2] at h
        exact absurd h (by simp)
      · rw [h2] at h
        simp only [List.nil_append, List.cons_append, List.cons.injEq] at h
        exact ha (by rw [h.1]; exact List.mem_cons_self _ _)
    | cons c2 bs =>
      simp only [List.cons_append, List.cons.injEq] at h
      obtain ⟨hc, htail⟩ := h
      rw [hc, ih bs r1 r2 (fun hm => ha (List.mem_cons_of_mem _ hm))
        (fun hm => hb (List.mem_cons_of_mem _ hm)) hr1 hr2 htail]

theorem wfChildren_cons (file_name : String) (child : FsNode)
    (rest : List (String × FsNode))
    (h : wfChildren ((file_name, child) :: rest) = true) :
    file_name ≠ "" ∧ Char.ofNat 47 ∉ file_name.data ∧
    (∀ p ∈ rest, p.1 ≠ file_name) ∧ wfNode child = true ∧
    wfChildren rest = true := by
  rw [wfChildren.eq_def] at h
  simp only [Bool.and_eq_true, decide_eq_true_eq] at h
  exact ⟨h.1.1.1.1, h.1.1.1.2, h.1.1.2, h.1.2, h.2⟩

theorem wfChildren_mem :
    ∀ cs : List (String × FsNode), wfChildren cs = true →
      ∀ p ∈ cs, p.1 ≠ "" ∧ Char.ofNat 47 ∉ p.1.data := by
  intro cs
  induction cs with
  | nil => intro _ p hp; simp at hp
  | cons q rest ih =>
    intro h p hp
    obtain ⟨n0, c0⟩ := q
    obtain ⟨hne, hsl, _, _, hwfr⟩ := wfChildren_cons n0 c0 rest h
    rcases List.mem_cons.mp hp with h1 | h2
    · rw [h1]; exact ⟨hne, hsl⟩
    · exact ih hwfr p h2

/-- Every entry reachable from a well-formed child list lies under exactly the
child it was discovered beneath. -/
theorem reachable_shape :
    ∀ (k : Nat) (cs : List (String × FsNode)) (pre : String) (d : Nat),
      childListWeight cs ≤ k → wfChildren cs = true →
      ∀ e ∈ reachableFrom cs pre d,
        ∃ n c, (n, c) ∈ cs ∧ entryUnder pre n e.name := by
  intro k
  induction k with
  | zero =>
    intro cs pre d hw _ e he
    cases cs with
    | nil => simp [reachableFrom] at he
    | cons p rest =>
      exfalso
      obtain ⟨n0, c0⟩ := p
      simp [childListWeight] at hw
  | succ k ih =>
    intro cs pre d hw hwf e he
    cases cs with
    | nil => simp [reachableFrom] at he
    | cons p rest =>
      obtain ⟨n0, c0⟩ := p
      obtain ⟨hne, _, _, hwfc, hwfr⟩ := wfChildren_cons n0 c0 rest hwf
      simp only [reachableFrom, List.cons_append, List.mem_cons,
        List.mem_append] at he
      rcases he with he | he | he
      · refine ⟨n0, c0, List.mem_cons_self _ _, [], ?_, Or.inl rfl⟩
        rw [he]
        simp [joinPath_data]
      · cases c0 with
        | dir rb ch =>
          simp only [reachableSub] at he
          by_cases hd1 : d > 1
          · rw [if_pos hd1] at he
            have hw2 : childListWeight ch ≤ k := by
              simp only [childListWeight, nodeWeight] at hw
              omega
            have hwfch : wfChildren ch = true := by
              rw [wfNode.eq_def] at hwfc
              simpa using hwfc
            obtain ⟨m, c2, _, r, hr, _⟩ :=
              ih ch (joinPath pre n0) (d - 1) hw2 hwfch e he
            refine ⟨n0, FsNode.dir rb ch, List.mem_cons_self _ _,
              Char.ofNat 47 :: (m.data ++ r), ?_, Or.inr ⟨_, rfl⟩⟩
            rw [hr, preData_joinPath pre n0 hne]
            simp
          · rw [if_neg hd1] at he
            simp at he
        | file => simp [reachableSub] at he
        | symlink => simp [reachableSub] at he
        | other => simp [reachableSub] at he
        | badMeta => simp [reachableSub] at he
      · have hwr : childListWeight rest ≤ k := by
          simp only [childListWeight] at hw
          have : 1 ≤ nodeWeight c0 := by cases c0 <;> simp [nodeWeight]
          omega
        obtain ⟨n1, c1, hm, hu⟩ := ih rest pre d hwr hwfr e he
        exact ⟨n1, c1, List.mem_cons_of_mem _ hm, hu⟩

/-- Every entry reachable strictly below the child named `n0` carries a name
that extends `joinPath pre n0` past a separator. -/
theorem reachableSub_shape (k : Nat) (c0 : FsNode) (pre n0 : String) (d : Nat)
    (hk : nodeWeight c0 ≤ k + 1) (hn : n0 ≠ "") (hwf : wfNode c0 = true) :
    ∀ e ∈ reachableSub c0 (joinPath pre n0) d,
      ∃ x, e.name.data = preData pre ++ n0.data ++ (Char.ofNat 47 :: x) := by
  intro e he
  cases c0 with
  | dir rb ch =>
    simp only [reachableSub] at he
    by_cases hd1 : d > 1
    · rw [if_pos hd1] at he
      have hw2 : childListWeight ch ≤ k := by
        simp only [nodeWeight] at hk
        omega
      have hwfch : wfChildren ch = true := by
        rw [wfNode.eq_def] at hwf
        simpa using hwf
      obtain ⟨m, c2, _, r, hr, _⟩ :=
        reachable_shape k ch (joinPath pre n0) (d - 1) hw2 hwfch e he
      exact ⟨m.data ++ r, by rw [hr, preData_joinPath pre n0 hn]; simp⟩
    · rw [if_neg hd1] at he
      simp at he
  | file => simp [reachableSub] at he
  | symlink => simp [reachableSub] at he
  | other => simp [reachableSub] at he
  | badMeta => simp [reachableSub] at he

/-- In a well-formed tree, the raw relative paths of one traversal's reachable
set are pairwise distinct. -/
theorem reachable_names_nodup :
    ∀ (k : Nat) (cs : List (String × FsNode)) (pre : String) (d : Nat),
      childListWeight cs ≤ k → wfChildren cs = true →
      ((reachableFrom cs pre d).map (fun e => e.name)).Nodup := by
  intro k
  induction k with
  | zero =>
    intro cs pre d hw _
    cases cs with
    | nil => simp [reachableFrom]
    | cons p rest =>
      exfalso
      obtain ⟨n0, c0⟩ := p
      simp [childListWeight] at hw
  | succ k ih =>
    intro cs pre d hw hwf
    cases cs with
    | nil => simp [reachableFrom]
    | cons p rest =>
      obtain ⟨n0, c0⟩ := p
      obtain ⟨hne, hsl, hdist, hwfc, hwfr⟩ := wfChildren_cons n0 c0 rest hwf
      have hw0 : 1 ≤ nodeWeight c0 := by cases c0 <;> simp [nodeWeight]
      have hwsub : nodeWeight c0 ≤ k + 1 := by
        simp only [childListWeight] at hw
        omega
      have hwr : childListWeight rest ≤ k := by
        simp only [childListWeight] at hw
        omega
      have hsubshape := reachableSub_shape k c0 pre n0 d hwsub hne hwfc
      have hrestshape := reachable_shape k rest pre d hwr hwfr
      simp only [reachableFrom, List.cons_append, List.map_cons, List.map_append,
        List.nodup_cons, List.nodup_append, List.mem_append]
      refine ⟨?_, ?_, ?_, ?_⟩
      · -- the child's own path equals no deeper path and no sibling-subtree path
        intro hmem
        rcases hmem with hmem | hmem
        · obtain ⟨s, hs, hname⟩ := List.mem_map.mp hmem
          obtain ⟨x, hx⟩ := hsubshape s hs
          rw [hname, joinPath_data] at hx
          have hlen := congrArg List.length hx
          simp [List.length_append] at hlen
        · obtain ⟨s, hs, hname⟩ := List.mem_map.mp hmem
          obtain ⟨n1, c1, hm1, r, hr, hror⟩ := hrestshape s hs
          rw [hname, joinPath_data] at hr
          rw [List.append_assoc] at hr
          have hcan := List.append_cancel_left hr
          have heq := first_segment_eq n0.data n1.data [] r hsl
            (wfChildren_mem rest hwfr (n1, c1) hm1).2 (Or.inl rfl) hror
            (by simpa using hcan)
          exact (hdist (n1, c1) hm1) (String.ext heq).symm
      · -- names below the child are pairwise distinct
        cases c0 with
        | dir rb ch =>
          simp only [reachableSub]
          by_cases hd1 : d > 1
          · rw [if_pos hd1]
            have hw2 : childListWeight ch ≤ k := by
              simp only [nodeWeight] at hwsub
              omega
            have hwfch : wfChildren ch = true := by
              rw [wfNode.eq_def] at hwfc
              simpa using hwfc
            exact ih ch (joinPath pre n0) (d - 1) hw2 hwfch
          · rw [if_neg hd1]
            simp
        | file => simp [reachableSub]
        | symlink => simp [reachableSub]
        | other => simp [reachableSub]
        | badMeta => simp [reachableSub]
      · -- names in the siblings' subtrees are pairwise distinct
        exact ih rest pre d hwr hwfr
      · -- subtree of this child and subtrees of the siblings are disjoint
        intro s hs1 hs2
        obtain ⟨e1, he1, hn1⟩ := List.mem_map.mp hs1
        obtain ⟨e2, he2, hn2⟩ := List.mem_map.mp hs2
        obtain ⟨x, hx⟩ := hsubshape e1 he1
        obtain ⟨n1, c1, hm1, r, hr, hror⟩ := hrestshape e2 he2
        rw [hn1] at hx
        rw [hn2] at hr
        rw [List.append_assoc] at hx hr
        have hcan := List.append_cancel_left (hx.symm.trans hr)
        have heq := first_segment_eq n0.data n1.data (Char.ofNat 47 :: x) r hsl
          (wfChildren_mem rest hwfr (n1, c1) hm1).2 (Or.inr ⟨x, rfl⟩) hror hcan
        exact (hdist (n1, c1) hm1) (String.ext heq).symm

/-- C4 (amended): in a well-formed filesystem the raw (untruncated) relative
paths of one traversal result are pairwise distinct, and therefore the stored
names are unique whenever no reachable relative path exceeds 500 bytes (so no
truncation occurs); two distinct long paths may collide after truncation. -/
theorem C4_name_uniqueness (root : FsNode) (depth : Nat) (es : List DirEntry)
    (hwf : wfNode root = true)
    (hc : collect_entries root "" depth [] = .ok es)
    (hshort : ∀ e ∈ reachableFrom (childrenOf root) "" depth,
      byteLen e.name ≤ MAX_ENTRY_LENGTH) :
    ((reachableFrom (childrenOf root) "" depth).map (fun e => e.name)).Nodup ∧
    (es.map (fun e => e.name)).Nodup := by
  have hg := collect_entries_good_of_ok root "" depth es hc
  have hwfc : wfChildren (childrenOf root) = true := by
    cases root with
    | dir readable children =>
      rw [wfNode.eq_def] at hwf
      simpa [childrenOf] using hwf
    | file => rfl
    | symlink => rfl
    | other => rfl
    | badMeta => rfl
  have hnodup := reachable_names_nodup (childListWeight (childrenOf root))
    (childrenOf root) "" depth (le_refl _) hwfc
  refine ⟨hnodup, ?_⟩
  have hperm := collect_entries_perm_reach root "" depth es hc
  have hmapped : List.Perm (es.map (fun e => e.name))
      (((reachableFrom (childrenOf root) "" depth).map truncEntry).map
        (fun e => e.name)) := hperm.map _
  rw [List.map_map] at hmapped
  have hcongr :
      (reachableFrom (childrenOf root) "" depth).map
          ((fun e => e.name) ∘ truncEntry) =
        (reachableFrom (childrenOf root) "" depth).map (fun e => e.name) := by
    apply List.map_congr_left
    intro e he
    have hshorte := hshort e he
    simp only [Function.comp, truncEntry]
    rw [format_entry_name, if_neg (by omega)]
  rw [hcongr] at hmapped
  exact hnodup.perm hmapped.symm

/-- C4 witness: a two-level well-formed tree with short names has pairwise
distinct raw paths and pairwise distinct stored names. -/
theorem C4_witness :
    ((reachableFrom
        (childrenOf (FsNode.dir true
          [("a", FsNode.file), ("b", FsNode.dir true [("c", FsNode.file)])]))
        "" 2).map (fun e => e.name)).Nodup ∧
    (([⟨"a", DirEntryKind.file⟩, ⟨"b", DirEntryKind.directory⟩,
        ⟨"b/c", DirEntryKind.file⟩] : List DirEntry).map
      (fun e => e.name)).Nodup :=
  C4_name_uniqueness
    (FsNode.dir true
      [("a", FsNode.file), ("b", FsNode.dir true [("c", FsNode.file)])])
    2
    [⟨"a", DirEntryKind.file⟩, ⟨"b", DirEntryKind.directory⟩,
      ⟨"b/c", DirEntryKind.file⟩]
    (by decide) (by decide) (by decide)

set_option maxRecDepth 100000 in
/-- C4 counterexample: a well-formed directory holding two distinct long names
that truncate to the same 500-byte prefix yields a traversal result in which
two entries carry the same stored name, refuting the claimed uniqueness of the
stored (possibly truncated) names. -/
theorem C4_counterexample :
    wfNode (FsNode.dir true
        [(longName1, FsNode.file), (longName2, FsNode.file)]) = true ∧
    collect_entries (FsNode.dir true
        [(longName1, FsNode.file), (longName2, FsNode.file)]) "" 1 [] =
      .ok [⟨collidedName, DirEntryKind.file⟩, ⟨collidedName, DirEntryKind.file⟩] ∧
    ¬ (([⟨collidedName, DirEntryKind.file⟩, ⟨collidedName, DirEntryKind.file⟩] :
        List DirEntry).map (fun e => e.name)).Nodup :=
  ⟨by decide, by decide, by decide⟩

/-- C3 witness: two discovery orders of a two-entry directory with distinct
names sort identically, and the spec's example is reproduced exactly. -/
theorem C3_witness :
    List.Sorted entryLe
      (sortEntries ([⟨"b", DirEntryKind.file⟩, ⟨"a", DirEntryKind.directory⟩] :
        List DirEntry)) ∧
    sortEntries ([⟨"b", DirEntryKind.file⟩, ⟨"a", DirEntryKind.directory⟩] :
        List DirEntry) =
      sortEntries ([⟨"a", DirEntryKind.directory⟩, ⟨"b", DirEntryKind.file⟩] :
        List DirEntry) ∧
    list_dir_slice exampleTree 1 20 3 = .ok
      ["E1: [file] entry.txt", "E2: [symlink] link", "E3: [dir] nested",
       "E4: [file] nested/child.txt", "E5: [dir] nested/deeper",
       "E6: [file] nested/deeper/grandchild.txt"] :=
  C3_sorted_output
    [⟨"b", DirEntryKind.file⟩, ⟨"a", DirEntryKind.directory⟩]
    [⟨"a", DirEntryKind.directory⟩, ⟨"b", DirEntryKind.file⟩]
    (by decide) (by decide)

/-! ### Truncation before versus after sorting -/

theorem readChildren_eq_raw (pre : String) (d : Nat) :
    ∀ (cs : List (String × FsNode)) (accR : List DirEntry)
      (st : List StackItem),
      readChildren pre d cs (accR.map truncEntry) st =
        (readChildrenRaw pre d cs accR st).map
          (fun res => (res.1.map truncEntry, res.2)) := by
  intro cs
  induction cs with
  | nil => intro accR st; simp [readChildren, readChildrenRaw, Except.map]
  | cons p rest ih =>
    intro accR st
    obtain ⟨file_name, child⟩ := p
    cases hft : fileTypeOf child with
    | none => simp [readChildren, readChildrenRaw, hft, Except.map]
    | some ft =>
      simp only [readChildren, readChildrenRaw, hft]
      have hacc : (accR.map truncEntry) ++
          [(⟨format_entry_name (joinPath pre file_name),
            DirEntryKind.ofFileType ft⟩ : DirEntry)] =
          (accR ++
            [(⟨joinPath pre file_name, DirEntryKind.ofFileType ft⟩ :
              DirEntry)]).map truncEntry := by
        simp [truncEntry]
      rw [hacc, ih]

theorem collectLoopFuel_eq_raw :
    ∀ (fuel : Nat) (stack : List StackItem) (accR : List DirEntry),
      collectLoopFuel fuel stack (accR.map truncEntry) =
        (collectLoopRawFuel fuel stack accR).map (List.map truncEntry) := by
  intro fuel
  induction fuel with
  | zero =>
    intro stack accR
    cases stack with
    | nil => simp [collectLoopFuel, collectLoopRawFuel, Except.map]
    | cons it rest =>
      obtain ⟨n, p, d⟩ := it
      simp [collectLoopFuel, collectLoopRawFuel, Except.map]
  | succ f ih =>
    intro stack accR
    cases stack with
    | nil => simp [collectLoopFuel, collectLoopRawFuel, Except.map]
    | cons it rest =>
      obtain ⟨n, p, d⟩ := it
      cases n with
      | dir readable children =>
        cases readable with
        | true =>
          simp only [collectLoopFuel, collectLoopRawFuel]
          rw [readChildren_eq_raw p d children accR rest]
          cases hr : readChildrenRaw p d children accR rest with
          | error e => simp [Except.map]
          | ok res =>
            simp only [Except.map]
            exact ih res.2 res.1
        | false => simp [collectLoopFuel, collectLoopRawFuel, Except.map]
      | file => simp [collectLoopFuel, collectLoopRawFuel, Except.map]
      | symlink => simp [collectLoopFuel, collectLoopRawFuel, Except.map]
      | other => simp [collectLoopFuel, collectLoopRawFuel, Except.map]
      | badMeta => simp [collectLoopFuel, collectLoopRawFuel, Except.map]

theorem collect_entries_eq_raw (root : FsNode) (rp : String) (depth : Nat) :
    collect_entries root rp depth [] =
      (collect_entries_raw root rp depth []).map (List.map truncEntry) := by
  have h := collectLoopFuel_eq_raw (stackWeight [(root, rp, depth)])
    [(root, rp, depth)] []
  simpa [collect_entries, collect_entries_raw] using h

/-- C9 (amended): whenever no collected relative path exceeds 500 bytes (so
truncation is the identity on every stored name), the pipeline that sorts the
untruncated relative paths and truncates at emission produces exactly the
output of the implemented pipeline that truncates at collection time and sorts
the truncated names; with longer paths, truncation can reorder or merge names
and the two pipelines disagree. -/
theorem C9_sort_truncation_commute (root : FsNode) (offset limit depth : Nat)
    (lraw : List DirEntry)
    (hr : collect_entries_raw root "" depth [] = .ok lraw)
    (hshort : ∀ e ∈ lraw, byteLen e.name ≤ MAX_ENTRY_LENGTH) :
    list_dir_slice_sortRaw root offset limit depth =
      list_dir_slice root offset limit depth := by
  have hpoint : ∀ e ∈ lraw, truncEntry e = e := by
    intro e he
    have hs := hshort e he
    cases e with
    | mk n k =>
      have hs2 : byteLen n ≤ MAX_ENTRY_LENGTH := hs
      simp only [truncEntry]
      rw [format_entry_name, if_neg (by omega)]
  have hid : lraw.map truncEntry = lraw :=
    (List.map_congr_left hpoint).trans (List.map_id _)
  have hc : collect_entries root "" depth [] = .ok lraw := by
    rw [collect_entries_eq_raw root "" depth, hr]
    simp [Except.map, hid]
  unfold list_dir_slice list_dir_slice_sortRaw
  rw [hr, hc]
  simp only []
  by_cases hemp : (sortEntries lraw).isEmpty
  · simp [hemp]
  · simp only [hemp, Bool.false_eq_true, if_false]
    by_cases hoff : offset - 1 ≥ (sortEntries lraw).length
    · simp [hoff]
    · simp only [if_neg hoff]
      by_cases hpan : min (((offset - 1) + limit) % USIZE_SIZE)
          (sortEntries lraw).length < offset - 1
      · simp only [if_pos hpan]
      · simp only [if_neg hpan]
        have hslice : ∀ e ∈ ((sortEntries lraw).drop (offset - 1)).take
            (min (((offset - 1) + limit) % USIZE_SIZE)
              (sortEntries lraw).length - (offset - 1)),
            truncEntry e = e := by
          intro e he
          exact hpoint e ((sortEntries_perm lraw).mem_iff.mp
            (List.mem_of_mem_drop (List.mem_of_mem_take he)))
        rw [(List.map_congr_left hslice).trans (List.map_id _)]

/-- C9 witness: on a directory with short names the two pipelines agree. -/
theorem C9_witness :
    list_dir_slice_sortRaw
        (FsNode.dir true [("b", FsNode.file), ("a", FsNode.file)]) 1 10 1 =
      list_dir_slice
        (FsNode.dir true [("b", FsNode.file), ("a", FsNode.file)]) 1 10 1 :=
  C9_sort_truncation_commute
    (FsNode.dir true [("b", FsNode.file), ("a", FsNode.file)]) 1 10 1
    [⟨"b", DirEntryKind.file⟩, ⟨"a", DirEntryKind.file⟩]
    (by decide) (by decide)

/-- A 501-byte name: 499 letters `a`, then `b`, then `d`. -/
def rawName1 : String :=
  ⟨List.replicate 499 (Char.ofNat 97) ++ [Char.ofNat 98, Char.ofNat 100]⟩

/-- A 501-byte name: 499 letters `a`, then the two-byte code point `β`. -/
def rawName2 : String :=
  ⟨List.replicate 499 (Char.ofNat 97) ++ [Char.ofNat 946]⟩

set_option maxRecDepth 200000 in
/-- C9 counterexample: with two 501-byte names, sorting the raw paths and then
truncating yields a different output than the implemented
truncate-then-sort: `…ab…` truncates to a 500-byte name while `…aβ` truncates
to a 499-byte prefix of it, reversing their relative order. -/
theorem C9_counterexample :
    list_dir_slice_sortRaw
        (FsNode.dir true [(rawName1, FsNode.file), (rawName2, FsNode.file)])
        1 10 1 ≠
      list_dir_slice
        (FsNode.dir true [(rawName1, FsNode.file), (rawName2, FsNode.file)])
        1 10 1 := by
  decide

end ListDir
